import Mathlib

/-!
A shallow embedding of the polynomial-equation solver (`src/polinom.js`,
with `src/src/main.cpp` as a secondary reference) and proofs about it.

Modelling conventions:
* JS strings are modelled as `List Char`; the regex scans of `extractTerms`
  and `extractConstant` are implemented as deterministic matchers.  For the
  two concrete patterns used by the source, greedy matching never needs
  backtracking across alternatives that could change the accepted match, so
  the deterministic matchers below compute exactly the JS `regex.exec` loop.
* JS double arithmetic on parsed values is modelled exactly over `ℚ`; the
  square roots taken by the quadratic solver are modelled over `ℝ`.
* `parseFloat` is total here; the one corner where the source can produce
  `NaN` (a matched coefficient consisting of a single `'.'`) is mapped to
  `0`.  No theorem below depends on inputs containing such a coefficient.
-/

namespace Polinom

/-- JS `\s` (the whitespace class stripped by `equation.replace(/\s/g, ''))`,
restricted to the characters that can reasonably occur in an equation. -/
def jsIsSpace (c : Char) : Bool :=
  c = ' ' || c = '\t' || c = '\n' || c = '\r' || c = '\x0b' || c = '\x0c' || c = ' '

/-- `equation.replace(/\s/g, '')`. -/
def stripWS (l : List Char) : List Char := l.filter (fun c => !jsIsSpace c)

/-- `cleanEquation.split('=')`. -/
def splitEq : List Char → List (List Char)
  | [] => [[]]
  | c :: rest =>
    if c = '=' then [] :: splitEq rest
    else
      match splitEq rest with
      | [] => [[c]]
      | p :: ps => (c :: p) :: ps

/-- `parseInt` on an all-digit string (the regex groups `(\d+)` only ever
produce digit runs). -/
def digitsToNat (l : List Char) : ℕ :=
  l.foldl (fun a c => 10 * a + (c.toNat - '0'.toNat)) 0

/-- `parseFloat` on the strings matched by the coefficient groups
(`digits`, `digits.digits`, `.digits`, `digits.`).  JS returns `NaN` for the
sole string `"."`; this model returns `0` there (see the file comment). -/
def parseFloatQ (l : List Char) : ℚ :=
  let ip := l.takeWhile Char.isDigit
  let rest := l.dropWhile Char.isDigit
  match rest with
  | '.' :: fr =>
    let fp := fr.takeWhile Char.isDigit
    (digitsToNat ip : ℚ) + (digitsToNat fp : ℚ) / 10 ^ fp.length
  | _ => (digitsToNat ip : ℚ)

/-- One match of the term regex `([+-]?)(\d*\.?\d*)\*?X\^(\d+)`:
the captured sign, coefficient and exponent-digit groups. -/
structure RawTerm where
  sign : Option Char
  coeff : List Char
  expDigits : List Char
  deriving DecidableEq, Repr

/-- `[+-]?`. -/
def eatSign : List Char → Option Char × List Char
  | c :: rest => if c = '+' || c = '-' then (some c, rest) else (none, c :: rest)
  | [] => (none, [])

/-- `\*?`. -/
def eatStar : List Char → List Char
  | '*' :: rest => rest
  | l => l

/-- `\.?`. -/
def eatDot : List Char → Bool × List Char
  | '.' :: rest => (true, rest)
  | l => (false, l)

/-- Try to match `([+-]?)(\d*\.?\d*)\*?X\^(\d+)` anchored at the head of `l`;
on success return the groups and the unconsumed rest of the string. -/
def matchTermFrom (l : List Char) : Option (RawTerm × List Char) :=
  let s1 := eatSign l
  let d1 := s1.2.takeWhile Char.isDigit
  let l2 := s1.2.dropWhile Char.isDigit
  let dm := eatDot l2
  let d2 := dm.2.takeWhile Char.isDigit
  let l4 := dm.2.dropWhile Char.isDigit
  match eatStar l4 with
  | 'X' :: '^' :: l6 =>
    let ed := l6.takeWhile Char.isDigit
    if ed.isEmpty then none
    else some (⟨s1.1, d1 ++ (if dm.1 then ['.'] else []) ++ d2, ed⟩,
               l6.dropWhile Char.isDigit)
  | _ => none

theorem eatSign_length (l : List Char) : (eatSign l).2.length ≤ l.length := by
  cases l with
  | nil => simp [eatSign]
  | cons c rest =>
    simp only [eatSign]
    split <;> simp

theorem eatStar_length (l : List Char) : (eatStar l).length ≤ l.length := by
  unfold eatStar
  split <;> simp

theorem eatDot_length (l : List Char) : (eatDot l).2.length ≤ l.length := by
  unfold eatDot
  split <;> simp

theorem length_dropWhile_le (p : Char → Bool) (l : List Char) :
    (l.dropWhile p).length ≤ l.length :=
  (List.dropWhile_sublist _).length_le

theorem matchTermFrom_length {l r : List Char} {t : RawTerm}
    (h : matchTermFrom l = some (t, r)) : r.length < l.length := by
  unfold matchTermFrom at h
  dsimp only at h
  split at h
  case _ x l6 heq =>
    split at h
    · exact absurd h (by simp)
    · have hr : r = l6.dropWhile Char.isDigit := by
        injection h with h1; injection h1 with _ h2; exact h2.symm
      have e1 : ('X' :: '^' :: l6).length ≤ l.length := by
        rw [← heq]
        calc (eatStar ((eatDot ((eatSign l).2.dropWhile Char.isDigit)).2.dropWhile
                Char.isDigit)).length
            ≤ ((eatDot ((eatSign l).2.dropWhile Char.isDigit)).2.dropWhile
                Char.isDigit).length := eatStar_length _
          _ ≤ (eatDot ((eatSign l).2.dropWhile Char.isDigit)).2.length :=
                length_dropWhile_le _ _
          _ ≤ ((eatSign l).2.dropWhile Char.isDigit).length := eatDot_length _
          _ ≤ (eatSign l).2.length := length_dropWhile_le _ _
          _ ≤ l.length := eatSign_length l
      have hrlen : r.length ≤ l6.length := by
        rw [hr]; exact length_dropWhile_le _ _
      simp only [List.length_cons] at e1
      omega
  case _ => exact absurd h (by simp)

/-- The `while ((match = regex.exec(side)) !== null)` loop of `extractTerms`:
the list of matches of the term regex over the side, scanning left to right
and resuming each search after the previous match. -/
def scanTermsGo (fuel : List Char) (l : List Char) : List RawTerm :=
  match fuel with
  | [] => []
  | _ :: fuel =>
    match l with
    | [] => []
    | c :: rest =>
      match matchTermFrom (c :: rest) with
      | some (t, r) => t :: scanTermsGo fuel r
      | none => scanTermsGo fuel rest

/-- Every successful match consumes at least one character, so fuel as long
as the string itself is enough for the whole scan. -/
def scanTerms (l : List Char) : List RawTerm := scanTermsGo l l

/-- Lines 29–38 of `src/polinom.js`: the signed coefficient contributed by one
match.  Note that for an omitted coefficient the code sets `coefficient`
itself to `±1` *and* still multiplies by `sign`, so a bare `-X^e` contributes
`(-1) * (-1) = +1`. -/
def termValue (t : RawTerm) : ℚ :=
  let sign : ℚ := if t.sign = some '-' then -1 else 1
  let coefficient : ℚ :=
    if t.coeff = [] ∧ t.sign = some '-' then -1
    else if t.coeff = [] ∧ t.sign = some '+' then 1
    else if t.coeff = [] then 1
    else parseFloatQ t.coeff
  sign * coefficient

/-- The coefficient mapping: a JS object keyed by exponent.  Keys are unique
for every mapping the source constructs. -/
abbrev CoeffMap := List (ℕ × ℚ)

/-- The keys of the mapping (`Object.keys`, as numbers). -/
def keysOf (m : CoeffMap) : List ℕ := m.map Prod.fst

/-- `m[e]`: `some` value when the key is present. -/
def lookupC (m : CoeffMap) (e : ℕ) : Option ℚ :=
  match m with
  | [] => none
  | (e', v) :: rest => if e' = e then some v else lookupC rest e

/-- `m[e] || 0`. -/
def getD (m : CoeffMap) (e : ℕ) : ℚ := (lookupC m e).getD 0

/-- `terms[exponent] = (terms[exponent] ?? 0) + v` — accumulate a term into
the per-side mapping (lines 40–44 of `src/polinom.js`). -/
def addTerm (m : CoeffMap) (e : ℕ) (v : ℚ) : CoeffMap :=
  match m with
  | [] => [(e, v)]
  | (e', v') :: rest =>
    if e' = e then (e', v' + v) :: rest else (e', v') :: addTerm rest e v

/-- `m[e] = v` — overwrite or insert (line 90 of `src/polinom.js`). -/
def setKey (m : CoeffMap) (e : ℕ) (v : ℚ) : CoeffMap :=
  match m with
  | [] => [(e, v)]
  | (e', v') :: rest =>
    if e' = e then (e', v) :: rest else (e', v') :: setKey rest e v

/-- `extractTerms` (lines 21–48 of `src/polinom.js`). -/
def extractTerms (side : List Char) : CoeffMap :=
  (scanTerms side).foldl
    (fun m t => addTerm m (digitsToNat t.expDigits) (termValue t)) []

/-- Try to match the constant regex `([+-]?)(\d*\.?\d+)\*?X\^0` anchored at
the head of `l`; on success return the signed constant and the rest.  The
coefficient group here *requires* a digit (`\d+`), and the exponent is the
literal character `0`. -/
def eatConstNum (l : List Char) : Option (List Char × List Char) :=
  let d1 := l.takeWhile Char.isDigit
  let l2 := l.dropWhile Char.isDigit
  match l2 with
  | '.' :: r =>
    let d2 := r.takeWhile Char.isDigit
    if d2.isEmpty then none
    else some (d1 ++ '.' :: d2, r.dropWhile Char.isDigit)
  | _ => if d1.isEmpty then none else some (d1, l2)

theorem eatConstNum_length {l n r : List Char}
    (h : eatConstNum l = some (n, r)) : r.length ≤ l.length := by
  unfold eatConstNum at h
  dsimp only at h
  split at h
  case _ rr hdw =>
    split at h
    · exact absurd h (by simp)
    · injection h with h1; injection h1 with _ h2
      have h3 : (rr.dropWhile Char.isDigit).length ≤ rr.length :=
        length_dropWhile_le _ _
      have h4 : ('.' :: rr).length ≤ l.length := by
        rw [← hdw]; exact length_dropWhile_le _ _
      simp only [List.length_cons] at h4
      rw [← h2]
      omega
  case _ =>
    split at h
    · exact absurd h (by simp)
    · injection h with h1; injection h1 with _ h2
      rw [← h2]
      exact length_dropWhile_le _ _

def matchConstFrom (l : List Char) : Option (ℚ × List Char) :=
  let s1 := eatSign l
  match eatConstNum s1.2 with
  | none => none
  | some (numcs, l3) =>
    match eatStar l3 with
    | 'X' :: '^' :: '0' :: l5 =>
      some ((if s1.1 = some '-' then (-1 : ℚ) else 1) * parseFloatQ numcs, l5)
    | _ => none

theorem matchConstFrom_length {l r : List Char} {v : ℚ}
    (h : matchConstFrom l = some (v, r)) : r.length < l.length := by
  unfold matchConstFrom at h
  dsimp only at h
  split at h
  case _ => exact absurd h (by simp)
  case _ numcs l3 hnum =>
    split at h
    case _ l5 heq =>
      have hr : r = l5 := by
        injection h with h1; injection h1 with _ h2; exact h2.symm
      have hl3 : l3.length ≤ l.length :=
        le_trans (eatConstNum_length hnum) (eatSign_length l)
      have h6 : ('X' :: '^' :: '0' :: l5).length ≤ l3.length := by
        rw [← heq]; exact eatStar_length _
      simp only [List.length_cons] at h6
      subst hr
      omega
    case _ => exact absurd h (by simp)

def extractConstantGo (fuel : List Char) (l : List Char) : ℚ :=
  match fuel with
  | [] => 0
  | _ :: fuel =>
    match l with
    | [] => 0
    | c :: rest =>
      match matchConstFrom (c :: rest) with
      | some (v, r) => v + extractConstantGo fuel r
      | none => extractConstantGo fuel rest

/-- The `extractConstant` accumulation loop (lines 51–64 of
`src/polinom.js`): the sum of all signed constant matches on the side. -/
def extractConstant (l : List Char) : ℚ := extractConstantGo l l

/-- Lines 74–91 of `src/polinom.js`: merge the two per-side term mappings
over the union of their exponents, then assign the constant slot from the
two `extractConstant` scans. -/
def combineSides (lt rt : CoeffMap) (cl cr : ℚ) : CoeffMap :=
  let exps := (keysOf lt ++ keysOf rt).dedup
  setKey (exps.map fun e => (e, getD lt e - getD rt e)) 0 (cl - cr)

/-- `parseEquation` (lines 9–93 of `src/polinom.js`).  `Except.error` models
the thrown `Error` (the spec's `FormatError`). -/
def parseEquation (s : String) : Except String CoeffMap :=
  let cs := stripWS s.data
  match splitEq cs with
  | lhs :: rhs :: _ =>
    if lhs.isEmpty then
      Except.error "Invalid equation format. Ensure it contains '=' sign."
    else
      Except.ok (combineSides (extractTerms lhs) (extractTerms rhs)
        (extractConstant lhs) (extractConstant rhs))
  | _ => Except.error "Invalid equation format. Ensure it contains '=' sign."

/-! ### Renderer (`generateReducedForm`, lines 95–143 of `src/polinom.js`) -/

/-- The decimal digit character for `n < 10`. -/
def natDigitChar (n : ℕ) : Char := Char.ofNat ('0'.toNat + n)

/-- Decimal digits of `n`, as JS `${n}` prints a non-negative integer. -/
def natStr (n : ℕ) : List Char :=
  if h : n < 10 then [natDigitChar n]
  else natStr (n / 10) ++ [natDigitChar (n % 10)]
termination_by n
decreasing_by
  exact Nat.div_lt_self (by omega) (by omega)

/-- Exactly `k` decimal digits of `n`, left-padded with zeros. -/
def natStrPad (n : ℕ) : ℕ → List Char
  | 0 => []
  | k + 1 => natStrPad (n / 10) k ++ [natDigitChar (n % 10)]

/-- The least `k` with `d ∣ 10 ^ k` (searched up to `d`, which suffices for
every `d` of the form `2 ^ a * 5 ^ b`); `0` for other denominators, which
never arise from parsed input. -/
def tenExp (d : ℕ) : ℕ :=
  match (List.range (d + 1)).find? (fun k => decide (d ∣ 10 ^ k)) with
  | some k => k
  | none => 0

/-- JS number-to-string on a non-negative value, under this file's exact-`ℚ`
model of double arithmetic: the terminating decimal expansion without
trailing zeros (`4` ↦ `"4"`, `93/10` ↦ `"9.3"`, `1/20` ↦ `"0.05"`). -/
def ratToStr (q : ℚ) : List Char :=
  let k := tenExp q.den
  let n := (q * 10 ^ k).num.toNat
  if k = 0 then natStr n
  else natStr (n / 10 ^ k) ++ '.' :: natStrPad (n % 10 ^ k) k

/-- One printed term of the reduced form: the sign separator (lines 106–111),
the absolute coefficient (printed whenever non-zero, which is the only way
this code is reached — the renderer skips zero coefficients first), and the
` * X^e` suffix for non-zero exponents (lines 124–127). -/
def termChunk (first : Bool) (e : ℕ) (v : ℚ) : List Char :=
  (if first then (if 0 ≤ v then [] else ['-', ' '])
   else (if 0 ≤ v then [' ', '+', ' '] else [' ', '-', ' '])) ++
  ratToStr |v| ++
  (if e ≠ 0 then [' ', '*', ' ', 'X', '^'] ++ natStr e else [])

/-- Ascending insertion of a key. -/
def insertSorted (e : ℕ) : List ℕ → List ℕ
  | [] => [e]
  | x :: xs => if e ≤ x then e :: x :: xs else x :: insertSorted e xs

/-- `Object.keys(...).map(parseInt).sort((a, b) => a - b)`. -/
def sortAsc (l : List ℕ) : List ℕ := l.foldr insertSorted []

/-- The body accumulation loop (lines 101–128): iterate exponents ascending,
skip zero coefficients, append a chunk per printed term. -/
def bodyAcc (m : CoeffMap) (exps : List ℕ) : List Char :=
  exps.foldl
    (fun acc e =>
      let v := getD m e
      if v = 0 then acc else acc ++ termChunk acc.isEmpty e v) []

/-- `p` begins `l`. -/
def isPre : List Char → List Char → Bool
  | [], _ => true
  | _ :: _, [] => false
  | p :: ps, c :: cs => p = c && isPre ps cs

/-- `l.indexOf(pat) !== -1`. -/
def hasSub (l pat : List Char) : Bool :=
  match l with
  | [] => pat.isEmpty
  | _ :: t => isPre pat l || hasSub t pat

/-- The pattern searched for at line 131, `'X^0'`. -/
def xZeroPat : List Char := ['X', '^', '0']

/-- The synthetic constant appended at line 132, `' + 1 * X^0'`. -/
def synthChunk : List Char := [' ', '+', ' ', '1', ' ', '*', ' ', 'X', '^', '0']

/-- `generateReducedForm` (lines 95–143 of `src/polinom.js`).  The `dedup`
models the inherent uniqueness of JS object keys. -/
def generateReducedForm (m : CoeffMap) : String :=
  let exps := sortAsc (keysOf m).dedup
  let body := bodyAcc m exps
  let body1 :=
    if body.length > 0 && !hasSub body xZeroPat then body ++ synthChunk else body
  let body2 := if body1.isEmpty then ['0'] else body1
  ⟨body2 ++ [' ', '=', ' ', '0']⟩

/-! ### Degree and solver (lines 145–246 of `src/polinom.js`) -/

/-- `determineDegree` (lines 145–148): `Math.max` over the exponent keys;
`none` models the `-Infinity` of an empty mapping. -/
def determineDegree (m : CoeffMap) : Option ℕ := (keysOf m).max?

/-- An entry of a `solutions` array: the source stores plain numbers for real
roots and preformatted strings for complex roots. -/
inductive RootVal where
  | num (x : ℝ)
  | str (s : String)

/-- The result object of `solvePolynomial`: `degree`, the optional
`discriminant`, the optional `solutions` array and the `description`. -/
structure Solution where
  degree : ℕ
  discriminant : Option ℚ
  solutions : Option (List RootVal)
  description : String

/-- `Number.prototype.toFixed(2)` (ECMA-262): format with exactly two
fraction digits, rounding the magnitude to nearest with ties away from
zero. -/
noncomputable def toFixed2 (x : ℝ) : String :=
  letI : Decidable (x < 0) := Classical.propDecidable _
  let n := (⌊|x| * 100 + 1 / 2⌋).toNat
  let core := natStr (n / 100) ++ '.' :: natStrPad (n % 100) 2
  if x < 0 then ⟨'-' :: core⟩ else ⟨core⟩

/-- `solvePolynomial` (lines 150–246 of `src/polinom.js`).  Branch decisions
(`degree`, zero tests, the sign of the discriminant) are exact over `ℚ`;
root values live in `ℝ`.  A `none` result models the implicit `undefined`
return when no branch matches (only possible for an empty mapping). -/
noncomputable def solvePolynomial (m : CoeffMap) : Option Solution :=
  match determineDegree m with
  | none => none
  | some degree =>
    if degree > 2 then
      some ⟨degree, none, none,
        "The polynomial degree is greater than 2, can't solve."⟩
    else if degree = 2 then
      let a := getD m 2
      let b := getD m 1
      let c := getD m 0
      if a = 0 then
        if b = 0 then
          some ⟨0, none, none,
            if c = 0 then "All real numbers are solutions." else "No solution."⟩
        else
          some ⟨1, none, some [RootVal.num ((-c / b : ℚ) : ℝ)],
            "Linear equation, one real solution."⟩
      else
        let disc := b * b - 4 * a * c
        if disc > 0 then
          some ⟨2, some disc, some
            [RootVal.num ((-(b : ℝ) + Real.sqrt (disc : ℝ)) / (2 * (a : ℝ))),
             RootVal.num ((-(b : ℝ) - Real.sqrt (disc : ℝ)) / (2 * (a : ℝ)))],
            "Discriminant is positive, two real solutions."⟩
        else if disc = 0 then
          some ⟨2, some disc,
            some [RootVal.num (-(b : ℝ) / (2 * (a : ℝ)))],
            "Discriminant is zero, one real solution."⟩
        else
          let realPart := toFixed2 (-(b : ℝ) / (2 * (a : ℝ)))
          let imaginaryPart := toFixed2 (Real.sqrt (-(disc : ℝ)) / (2 * (a : ℝ)))
          some ⟨2, some disc, some
            [RootVal.str (realPart ++ " + " ++ imaginaryPart ++ "i"),
             RootVal.str (realPart ++ " - " ++ imaginaryPart ++ "i")],
            "Discriminant is negative, two complex solutions."⟩
    else if degree = 1 then
      let b := getD m 1
      let c := getD m 0
      if b = 0 then
        some ⟨0, none, none,
          if c = 0 then "All real numbers are solutions." else "No solution."⟩
      else
        some ⟨1, none, some [RootVal.num ((-c / b : ℚ) : ℝ)],
          "Linear equation, one real solution."⟩
    else if degree = 0 then
      let c := getD m 0
      some ⟨0, none, some [],
        if c = 0 then "All real numbers are solutions." else "No solution."⟩
    else none

/-! ### C3: the non-degenerate quadratic branches -/

/-- **C3.** For every canonical mapping of nominal degree 2 whose leading
coefficient `a = coeff[2]` is non-zero, with `b = coeff[1]`, `c = coeff[0]`
and `D = b*b - 4*a*c`: when `D > 0` the solver returns exactly the two real
roots `(-b + √D)/(2a)` and `(-b - √D)/(2a)`, and when `D = 0` exactly the
single real root `-b/(2a)` (each with degree 2, the discriminant, and the
corresponding description). -/
theorem quadratic_real_roots (m : CoeffMap)
    (hdeg : determineDegree m = some 2) (ha : getD m 2 ≠ 0) :
    (0 < getD m 1 * getD m 1 - 4 * getD m 2 * getD m 0 →
      solvePolynomial m = some
        ⟨2, some (getD m 1 * getD m 1 - 4 * getD m 2 * getD m 0), some
          [RootVal.num ((-(getD m 1 : ℝ) +
              Real.sqrt ((getD m 1 * getD m 1 - 4 * getD m 2 * getD m 0 : ℚ) : ℝ)) /
              (2 * (getD m 2 : ℝ))),
           RootVal.num ((-(getD m 1 : ℝ) -
              Real.sqrt ((getD m 1 * getD m 1 - 4 * getD m 2 * getD m 0 : ℚ) : ℝ)) /
              (2 * (getD m 2 : ℝ)))],
          "Discriminant is positive, two real solutions."⟩) ∧
    (getD m 1 * getD m 1 - 4 * getD m 2 * getD m 0 = 0 →
      solvePolynomial m = some
        ⟨2, some (getD m 1 * getD m 1 - 4 * getD m 2 * getD m 0),
          some [RootVal.num (-(getD m 1 : ℝ) / (2 * (getD m 2 : ℝ)))],
          "Discriminant is zero, one real solution."⟩) := by
  constructor
  · intro hD
    simp only [solvePolynomial, hdeg]
    norm_num [ha, hD]
  · intro hD
    simp only [solvePolynomial, hdeg]
    norm_num [ha, hD]

/-- Witness for C3 at `x² - 1 = 0` (mapping `{0: -1, 1: 0, 2: 1}`,
discriminant `4 > 0`) and at `x² = 0` (mapping `{0: 0, 1: 0, 2: 1}`,
discriminant `0`). -/
theorem quadratic_real_roots_witness :
    ((0 : ℚ) < getD [((0 : ℕ), (-1 : ℚ)), (1, 0), (2, 1)] 1 *
        getD [((0 : ℕ), (-1 : ℚ)), (1, 0), (2, 1)] 1 -
        4 * getD [((0 : ℕ), (-1 : ℚ)), (1, 0), (2, 1)] 2 *
        getD [((0 : ℕ), (-1 : ℚ)), (1, 0), (2, 1)] 0 ∧
      solvePolynomial [((0 : ℕ), (-1 : ℚ)), (1, 0), (2, 1)] = some
        ⟨2, some (getD [((0 : ℕ), (-1 : ℚ)), (1, 0), (2, 1)] 1 *
            getD [((0 : ℕ), (-1 : ℚ)), (1, 0), (2, 1)] 1 -
            4 * getD [((0 : ℕ), (-1 : ℚ)), (1, 0), (2, 1)] 2 *
            getD [((0 : ℕ), (-1 : ℚ)), (1, 0), (2, 1)] 0), some
          [RootVal.num ((-(getD [((0 : ℕ), (-1 : ℚ)), (1, 0), (2, 1)] 1 : ℝ) +
              Real.sqrt ((getD [((0 : ℕ), (-1 : ℚ)), (1, 0), (2, 1)] 1 *
                getD [((0 : ℕ), (-1 : ℚ)), (1, 0), (2, 1)] 1 -
                4 * getD [((0 : ℕ), (-1 : ℚ)), (1, 0), (2, 1)] 2 *
                getD [((0 : ℕ), (-1 : ℚ)), (1, 0), (2, 1)] 0 : ℚ) : ℝ)) /
              (2 * (getD [((0 : ℕ), (-1 : ℚ)), (1, 0), (2, 1)] 2 : ℝ))),
           RootVal.num ((-(getD [((0 : ℕ), (-1 : ℚ)), (1, 0), (2, 1)] 1 : ℝ) -
              Real.sqrt ((getD [((0 : ℕ), (-1 : ℚ)), (1, 0), (2, 1)] 1 *
                getD [((0 : ℕ), (-1 : ℚ)), (1, 0), (2, 1)] 1 -
                4 * getD [((0 : ℕ), (-1 : ℚ)), (1, 0), (2, 1)] 2 *
                getD [((0 : ℕ), (-1 : ℚ)), (1, 0), (2, 1)] 0 : ℚ) : ℝ)) /
              (2 * (getD [((0 : ℕ), (-1 : ℚ)), (1, 0), (2, 1)] 2 : ℝ)))],
          "Discriminant is positive, two real solutions."⟩) ∧
    solvePolynomial [((0 : ℕ), (0 : ℚ)), (1, 0), (2, 1)] = some
      ⟨2, some (getD [((0 : ℕ), (0 : ℚ)), (1, 0), (2, 1)] 1 *
          getD [((0 : ℕ), (0 : ℚ)), (1, 0), (2, 1)] 1 -
          4 * getD [((0 : ℕ), (0 : ℚ)), (1, 0), (2, 1)] 2 *
          getD [((0 : ℕ), (0 : ℚ)), (1, 0), (2, 1)] 0),
        some [RootVal.num (-(getD [((0 : ℕ), (0 : ℚ)), (1, 0), (2, 1)] 1 : ℝ) /
          (2 * (getD [((0 : ℕ), (0 : ℚ)), (1, 0), (2, 1)] 2 : ℝ)))],
        "Discriminant is zero, one real solution."⟩ :=
  ⟨⟨by norm_num [getD, lookupC],
    (quadratic_real_roots [((0 : ℕ), (-1 : ℚ)), (1, 0), (2, 1)]
      (by decide) (by norm_num [getD, lookupC])).1 (by norm_num [getD, lookupC])⟩,
   (quadratic_real_roots [((0 : ℕ), (0 : ℚ)), (1, 0), (2, 1)]
      (by decide) (by norm_num [getD, lookupC])).2 (by norm_num [getD, lookupC])⟩

/-! ### C5: degenerate quadratic collapses to the linear branch -/

/-- **C5.** A canonical mapping of nominal degree 2 whose coefficient at
exponent 2 is zero is solved exactly as a mapping of nominal degree 1 with
the same `coeff[1]` and `coeff[0]`: same result object (degree, roots,
description). -/
theorem degenerate_quadratic_is_linear (m m' : CoeffMap)
    (hdeg : determineDegree m = some 2) (ha : getD m 2 = 0)
    (hdeg' : determineDegree m' = some 1)
    (hb : getD m' 1 = getD m 1) (hc : getD m' 0 = getD m 0) :
    solvePolynomial m = solvePolynomial m' := by
  simp only [solvePolynomial, hdeg, hdeg', hb, hc]
  norm_num [ha]

/-- Witness for C5 at `{0: 4, 1: 2, 2: 0}` versus `{0: 4, 1: 2}` (both solve
the linear equation `2x + 4 = 0`). -/
theorem degenerate_quadratic_is_linear_witness :
    solvePolynomial [((0 : ℕ), (4 : ℚ)), (1, 2), (2, 0)] =
      solvePolynomial [((0 : ℕ), (4 : ℚ)), (1, 2)] :=
  degenerate_quadratic_is_linear _ _ (by decide) (by norm_num [getD, lookupC])
    (by decide) (by norm_num [getD, lookupC]) (by norm_num [getD, lookupC])

/-! ### C9: every division in the solver is gated by a non-zero check -/

/-- Division over `ℚ` instrumented to fail on a zero denominator. -/
def checkedDivQ (x y : ℚ) : Option ℚ := if y = 0 then none else some (x / y)

/-- Division over `ℝ` instrumented to fail on a zero denominator. -/
noncomputable def checkedDivR (x y : ℝ) : Option ℝ :=
  letI : Decidable (y = 0) := Classical.propDecidable _
  if y = 0 then none else some (x / y)

/-- `solvePolynomial` with every division site of the source replaced by a
checked division: an overall `none` means some division ran with a zero
denominator.  The division sites are `-c / b` (lines 174 and 231, guarded by
`b === 0` checks) and the four `/ (2 * a)` of the quadratic branch
(lines 189–209, reached only when `a === 0` fails). -/
noncomputable def solvePolynomialChecked (m : CoeffMap) : Option (Option Solution) :=
  match determineDegree m with
  | none => some none
  | some degree =>
    if degree > 2 then
      some (some ⟨degree, none, none,
        "The polynomial degree is greater than 2, can't solve."⟩)
    else if degree = 2 then
      let a := getD m 2
      let b := getD m 1
      let c := getD m 0
      if a = 0 then
        if b = 0 then
          some (some ⟨0, none, none,
            if c = 0 then "All real numbers are solutions." else "No solution."⟩)
        else
          (checkedDivQ (-c) b).map fun x =>
            some ⟨1, none, some [RootVal.num (x : ℝ)],
              "Linear equation, one real solution."⟩
      else
        let disc := b * b - 4 * a * c
        if disc > 0 then
          match checkedDivR (-(b : ℝ) + Real.sqrt (disc : ℝ)) (2 * (a : ℝ)),
              checkedDivR (-(b : ℝ) - Real.sqrt (disc : ℝ)) (2 * (a : ℝ)) with
          | some r1, some r2 =>
            some (some ⟨2, some disc, some [RootVal.num r1, RootVal.num r2],
              "Discriminant is positive, two real solutions."⟩)
          | _, _ => none
        else if disc = 0 then
          match checkedDivR (-(b : ℝ)) (2 * (a : ℝ)) with
          | some r1 =>
            some (some ⟨2, some disc, some [RootVal.num r1],
              "Discriminant is zero, one real solution."⟩)
          | none => none
        else
          match checkedDivR (-(b : ℝ)) (2 * (a : ℝ)),
              checkedDivR (Real.sqrt (-(disc : ℝ))) (2 * (a : ℝ)) with
          | some re, some im =>
            some (some ⟨2, some disc, some
              [RootVal.str (toFixed2 re ++ " + " ++ toFixed2 im ++ "i"),
               RootVal.str (toFixed2 re ++ " - " ++ toFixed2 im ++ "i")],
              "Discriminant is negative, two complex solutions."⟩)
          | _, _ => none
    else if degree = 1 then
      let b := getD m 1
      let c := getD m 0
      if b = 0 then
        some (some ⟨0, none, none,
          if c = 0 then "All real numbers are solutions." else "No solution."⟩)
      else
        (checkedDivQ (-c) b).map fun x =>
          some ⟨1, none, some [RootVal.num (x : ℝ)],
            "Linear equation, one real solution."⟩
    else if degree = 0 then
      let c := getD m 0
      some (some ⟨0, none, some [],
        if c = 0 then "All real numbers are solutions." else "No solution."⟩)
    else some none

/-- **C9.** No division-by-zero is reachable in the solver: the instrumented
solver never signals a zero denominator and agrees with `solvePolynomial`
everywhere; on every canonical mapping (which always has the key 0) the
solver returns a result; and the only error the parser can raise is the
single format error. -/
theorem solver_divisions_gated (m : CoeffMap) (s : String) :
    solvePolynomialChecked m = some (solvePolynomial m) ∧
    (0 ∈ keysOf m → (solvePolynomial m).isSome = true) ∧
    (∀ msg, parseEquation s = Except.error msg →
      msg = "Invalid equation format. Ensure it contains '=' sign.") := by
  refine ⟨?_, ?_, ?_⟩
  · unfold solvePolynomialChecked solvePolynomial
    cases hdeg : determineDegree m with
    | none => rfl
    | some degree =>
      dsimp only
      by_cases h2 : degree > 2
      · simp [h2]
      · by_cases hdeg2 : degree = 2
        · by_cases ha : getD m 2 = 0
          · by_cases hb : getD m 1 = 0
            · simp [h2, hdeg2, ha, hb]
            · simp [h2, hdeg2, ha, hb, checkedDivQ]
          · by_cases hDpos : getD m 1 * getD m 1 - 4 * getD m 2 * getD m 0 > 0
            · have h2a : (2 : ℝ) * (getD m 2 : ℝ) ≠ 0 := by
                simp [ha]
              simp [h2, hdeg2, ha, hDpos, checkedDivR, h2a]
            · by_cases hD0 : getD m 1 * getD m 1 - 4 * getD m 2 * getD m 0 = 0
              · have h2a : (2 : ℝ) * (getD m 2 : ℝ) ≠ 0 := by
                  simp [ha]
                simp [h2, hdeg2, ha, hDpos, hD0, checkedDivR, h2a]
              · have h2a : (2 : ℝ) * (getD m 2 : ℝ) ≠ 0 := by
                  simp [ha]
                simp [h2, hdeg2, ha, hDpos, hD0, checkedDivR, h2a]
        · by_cases hdeg1 : degree = 1
          · by_cases hb : getD m 1 = 0
            · simp [h2, hdeg2, hdeg1, hb]
            · simp [h2, hdeg2, hdeg1, hb, checkedDivQ]
          · by_cases hdeg0 : degree = 0
            · simp [h2, hdeg2, hdeg1, hdeg0]
            · simp [h2, hdeg2, hdeg1, hdeg0]
  · intro h0
    obtain ⟨d, hd⟩ : ∃ d, determineDegree m = some d := by
      unfold determineDegree
      cases hmax : (keysOf m).max? with
      | none =>
        rw [List.max?_eq_none_iff] at hmax
        rw [hmax] at h0
        exact absurd h0 (List.not_mem_nil 0)
      | some d => exact ⟨d, rfl⟩
    unfold solvePolynomial
    rw [hd]
    dsimp only
    split_ifs <;> first | rfl | omega
  · intro msg hmsg
    unfold parseEquation at hmsg
    dsimp only at hmsg
    split at hmsg
    · split at hmsg
      · exact ((Except.error.inj hmsg)).symm
      · exact absurd hmsg (by simp)
    · exact ((Except.error.inj hmsg)).symm

/-- Witness for C9 at the mapping `{0: 1}` and the input `"5 * X^2"` (which
raises the format error). -/
theorem solver_divisions_gated_witness :
    (0 ∈ keysOf [((0 : ℕ), (1 : ℚ))] ∧
      (solvePolynomial [((0 : ℕ), (1 : ℚ))]).isSome = true) ∧
    parseEquation "5 * X^2" = Except.error
      "Invalid equation format. Ensure it contains '=' sign." :=
  ⟨⟨by decide, (solver_divisions_gated [((0 : ℕ), (1 : ℚ))] "").2.1 (by decide)⟩,
   by
    have h := (solver_divisions_gated [] "5 * X^2").2.2
    rcases hp : parseEquation "5 * X^2" with msg | m
    · rw [h msg hp]
    · have hne : (parseEquation "5 * X^2").toOption = none := by decide
      rw [hp] at hne
      simp [Except.toOption] at hne⟩

/-! ### C4: the complex branch and its 2-decimal storage -/

theorem toFixed2_eval_nonneg {x : ℝ} {n : ℕ} (hx : 0 ≤ x)
    (h1 : (n : ℝ) ≤ x * 100 + 1 / 2) (h2 : x * 100 + 1 / 2 < n + 1) :
    toFixed2 x = ⟨natStr (n / 100) ++ '.' :: natStrPad (n % 100) 2⟩ := by
  unfold toFixed2
  rw [if_neg (not_lt.mpr hx)]
  have habs : |x| = x := abs_of_nonneg hx
  have hfl : ⌊x * 100 + 1 / 2⌋ = (n : ℤ) :=
    Int.floor_eq_iff.mpr ⟨by exact_mod_cast h1, by push_cast; exact h2⟩
  rw [habs, hfl, Int.toNat_natCast]

theorem toFixed2_eval_neg {x : ℝ} {n : ℕ} (hx : x < 0)
    (h1 : (n : ℝ) ≤ -x * 100 + 1 / 2) (h2 : -x * 100 + 1 / 2 < n + 1) :
    toFixed2 x = ⟨'-' :: (natStr (n / 100) ++ '.' :: natStrPad (n % 100) 2)⟩ := by
  unfold toFixed2
  rw [if_pos hx]
  have habs : |x| = -x := abs_of_neg hx
  have hfl : ⌊-x * 100 + 1 / 2⌋ = (n : ℤ) :=
    Int.floor_eq_iff.mpr ⟨by exact_mod_cast h1, by push_cast; exact h2⟩
  rw [habs, hfl, Int.toNat_natCast]

/-- **C4 (amended).** For every canonical mapping of nominal degree 2 with
`a = coeff[2] ≠ 0` and discriminant `D < 0`, the solver returns two complex
roots whose real coordinate is `-b/(2a)` and whose imaginary coordinate is
`√(-D)/(2a)` — but it stores each root as a single string with both
coordinates already formatted to 2 decimals at solve time, not as
full-precision values formatted only on output. -/
theorem quadratic_complex_roots (m : CoeffMap)
    (hdeg : determineDegree m = some 2) (ha : getD m 2 ≠ 0)
    (hD : getD m 1 * getD m 1 - 4 * getD m 2 * getD m 0 < 0) :
    solvePolynomial m = some
      ⟨2, some (getD m 1 * getD m 1 - 4 * getD m 2 * getD m 0), some
        [RootVal.str
          (toFixed2 (-(getD m 1 : ℝ) / (2 * (getD m 2 : ℝ))) ++ " + " ++
           toFixed2 (Real.sqrt
              (-((getD m 1 * getD m 1 - 4 * getD m 2 * getD m 0 : ℚ) : ℝ)) /
            (2 * (getD m 2 : ℝ))) ++ "i"),
         RootVal.str
          (toFixed2 (-(getD m 1 : ℝ) / (2 * (getD m 2 : ℝ))) ++ " - " ++
           toFixed2 (Real.sqrt
              (-((getD m 1 * getD m 1 - 4 * getD m 2 * getD m 0 : ℚ) : ℝ)) /
            (2 * (getD m 2 : ℝ))) ++ "i")],
        "Discriminant is negative, two complex solutions."⟩ := by
  have hn1 : ¬ (0 < getD m 1 * getD m 1 - 4 * getD m 2 * getD m 0) :=
    not_lt.mpr hD.le
  have hn2 : getD m 1 * getD m 1 - 4 * getD m 2 * getD m 0 ≠ 0 := ne_of_lt hD
  simp only [solvePolynomial, hdeg]
  norm_num [ha, hn1, hn2]

/-- Witness for C4 at `x² + x + 1 = 0` (discriminant `-3`). -/
theorem quadratic_complex_roots_witness :
    (getD [((0 : ℕ), (1 : ℚ)), (1, 1), (2, 1)] 1 *
        getD [((0 : ℕ), (1 : ℚ)), (1, 1), (2, 1)] 1 -
        4 * getD [((0 : ℕ), (1 : ℚ)), (1, 1), (2, 1)] 2 *
        getD [((0 : ℕ), (1 : ℚ)), (1, 1), (2, 1)] 0 < 0) ∧
    solvePolynomial [((0 : ℕ), (1 : ℚ)), (1, 1), (2, 1)] = some
      ⟨2, some (getD [((0 : ℕ), (1 : ℚ)), (1, 1), (2, 1)] 1 *
          getD [((0 : ℕ), (1 : ℚ)), (1, 1), (2, 1)] 1 -
          4 * getD [((0 : ℕ), (1 : ℚ)), (1, 1), (2, 1)] 2 *
          getD [((0 : ℕ), (1 : ℚ)), (1, 1), (2, 1)] 0), some
        [RootVal.str
          (toFixed2 (-(getD [((0 : ℕ), (1 : ℚ)), (1, 1), (2, 1)] 1 : ℝ) /
            (2 * (getD [((0 : ℕ), (1 : ℚ)), (1, 1), (2, 1)] 2 : ℝ))) ++ " + " ++
           toFixed2 (Real.sqrt
              (-((getD [((0 : ℕ), (1 : ℚ)), (1, 1), (2, 1)] 1 *
                getD [((0 : ℕ), (1 : ℚ)), (1, 1), (2, 1)] 1 -
                4 * getD [((0 : ℕ), (1 : ℚ)), (1, 1), (2, 1)] 2 *
                getD [((0 : ℕ), (1 : ℚ)), (1, 1), (2, 1)] 0 : ℚ) : ℝ)) /
            (2 * (getD [((0 : ℕ), (1 : ℚ)), (1, 1), (2, 1)] 2 : ℝ))) ++ "i"),
         RootVal.str
          (toFixed2 (-(getD [((0 : ℕ), (1 : ℚ)), (1, 1), (2, 1)] 1 : ℝ) /
            (2 * (getD [((0 : ℕ), (1 : ℚ)), (1, 1), (2, 1)] 2 : ℝ))) ++ " - " ++
           toFixed2 (Real.sqrt
              (-((getD [((0 : ℕ), (1 : ℚ)), (1, 1), (2, 1)] 1 *
                getD [((0 : ℕ), (1 : ℚ)), (1, 1), (2, 1)] 1 -
                4 * getD [((0 : ℕ), (1 : ℚ)), (1, 1), (2, 1)] 2 *
                getD [((0 : ℕ), (1 : ℚ)), (1, 1), (2, 1)] 0 : ℚ) : ℝ)) /
            (2 * (getD [((0 : ℕ), (1 : ℚ)), (1, 1), (2, 1)] 2 : ℝ))) ++ "i")],
        "Discriminant is negative, two complex solutions."⟩ :=
  ⟨by norm_num [getD, lookupC],
   quadratic_complex_roots [((0 : ℕ), (1 : ℚ)), (1, 1), (2, 1)]
     (by decide) (by norm_num [getD, lookupC]) (by norm_num [getD, lookupC])⟩

theorem toFixed2_congr_nonneg {x y : ℝ} {n : ℕ} (hx : 0 ≤ x) (hy : 0 ≤ y)
    (hx1 : (n : ℝ) ≤ x * 100 + 1 / 2) (hx2 : x * 100 + 1 / 2 < n + 1)
    (hy1 : (n : ℝ) ≤ y * 100 + 1 / 2) (hy2 : y * 100 + 1 / 2 < n + 1) :
    toFixed2 x = toFixed2 y := by
  rw [toFixed2_eval_nonneg hx hx1 hx2, toFixed2_eval_nonneg hy hy1 hy2]

/-- **C4, counterexample to full-precision internal storage.**  The equations
`x² + x + 1 = 0` (discriminant `-3`, imaginary coordinate `√3/2`) and
`x² + x + 1.001 = 0` (discriminant `-3.004`, imaginary coordinate
`√3.004/2`) have different exact roots (their discriminants differ), yet the
solver stores exactly the same `solutions` for both — the values kept
internally are the 2-decimal strings, not full-precision numbers. -/
theorem complex_precision_counterexample :
    ((solvePolynomial [((0 : ℕ), (1 : ℚ)), (1, 1), (2, 1)]).map
        Solution.solutions =
      (solvePolynomial [((0 : ℕ), (1001 / 1000 : ℚ)), (1, 1), (2, 1)]).map
        Solution.solutions) ∧
    (solvePolynomial [((0 : ℕ), (1 : ℚ)), (1, 1), (2, 1)]).map
        Solution.discriminant ≠
      (solvePolynomial [((0 : ℕ), (1001 / 1000 : ℚ)), (1, 1), (2, 1)]).map
        Solution.discriminant := by
  have hdeg1 : determineDegree [((0 : ℕ), (1 : ℚ)), (1, 1), (2, 1)] = some 2 := by
    decide
  have hdeg2 : determineDegree [((0 : ℕ), (1001 / 1000 : ℚ)), (1, 1), (2, 1)] =
      some 2 := by decide
  have him : toFixed2 (Real.sqrt 3 / 2) = toFixed2 (Real.sqrt (751 / 250) / 2) := by
    have s3l : (173 / 100 : ℝ) ≤ Real.sqrt 3 := by
      rw [Real.le_sqrt' (by norm_num)]; norm_num
    have s3u : Real.sqrt 3 < 175 / 100 := by
      rw [Real.sqrt_lt' (by norm_num)]; norm_num
    have s4l : (173 / 100 : ℝ) ≤ Real.sqrt (751 / 250) := by
      rw [Real.le_sqrt' (by norm_num)]; norm_num
    have s4u : Real.sqrt (751 / 250) < 175 / 100 := by
      rw [Real.sqrt_lt' (by norm_num)]; norm_num
    refine toFixed2_congr_nonneg (n := 87) (by positivity) (by positivity)
      (by nlinarith) (by nlinarith) (by nlinarith) (by nlinarith)
  constructor
  · simp only [solvePolynomial, hdeg1, hdeg2]
    norm_num [getD, lookupC, him]
  · simp only [solvePolynomial, hdeg1, hdeg2]
    norm_num [getD, lookupC]

/-! ### C2: when the parser raises the format error -/

theorem splitEq_ne_nil (l : List Char) : splitEq l ≠ [] := by
  induction l with
  | nil => simp [splitEq]
  | cons c rest ih =>
    unfold splitEq
    by_cases hc : c = '='
    · simp [hc]
    · simp only [if_neg hc]
      cases hsp : splitEq rest with
      | nil => simp
      | cons p ps => simp

theorem splitEq_two_iff (l : List Char) : 2 ≤ (splitEq l).length ↔ '=' ∈ l := by
  induction l with
  | nil => simp [splitEq]
  | cons c rest ih =>
    unfold splitEq
    by_cases hc : c = '='
    · subst hc
      rw [if_pos rfl]
      simp only [List.length_cons, List.mem_cons]
      constructor
      · intro _h
        simp
      · intro _h
        cases hsp : splitEq rest with
        | nil => exact absurd hsp (splitEq_ne_nil rest)
        | cons p ps => simp only [List.length_cons]; omega
    · simp only [if_neg hc]
      cases hsp : splitEq rest with
      | nil => exact absurd hsp (splitEq_ne_nil rest)
      | cons p ps =>
        rw [hsp] at ih
        simp only [List.length_cons, List.mem_cons] at ih ⊢
        constructor
        · intro h; exact Or.inr (ih.mp (by omega))
        · intro h
          rcases h with h | h
          · exact absurd h.symm hc
          · have := ih.mpr h; omega

theorem splitEq_head (l : List Char) :
    ∃ ps, splitEq l = l.takeWhile (fun c => c != '=') :: ps := by
  induction l with
  | nil => exact ⟨[], by simp [splitEq]⟩
  | cons c rest ih =>
    unfold splitEq
    by_cases hc : c = '='
    · subst hc
      refine ⟨splitEq rest, ?_⟩
      simp [List.takeWhile]
    · obtain ⟨ps, hps⟩ := ih
      rw [hps]
      refine ⟨ps, ?_⟩
      simp only [if_neg hc, List.takeWhile]
      have : (c != '=') = true := by simpa using hc
      rw [this]

theorem parse_error_iff_core (s : String) :
    (∃ msg, parseEquation s = Except.error msg) ↔
      ('=' ∉ stripWS s.data ∨
        (stripWS s.data).takeWhile (fun c => c != '=') = []) := by
  obtain ⟨ps, hps⟩ := splitEq_head (stripWS s.data)
  unfold parseEquation
  dsimp only
  rw [hps]
  cases ps with
  | nil =>
    have h1 : ¬ 2 ≤ (splitEq (stripWS s.data)).length := by rw [hps]; simp
    have h2 : '=' ∉ stripWS s.data := fun hmem => h1 ((splitEq_two_iff _).mpr hmem)
    simp [h2]
  | cons rhs rest =>
    have h2 : '=' ∈ stripWS s.data := by
      refine (splitEq_two_iff _).mp ?_
      rw [hps]
      simp
    by_cases hl : (stripWS s.data).takeWhile (fun c => c != '=') = []
    · simp [hl, h2]
    · simp [hl, h2]

/-- **C2 (amended).** The parser raises its format error exactly when the
whitespace-stripped input contains no `'='` at all, or the segment before
the *first* `'='` is empty.  In particular an empty right-hand side, or
extra `'='` separators (whose trailing content is ignored), do *not* raise
an error. -/
theorem parse_error_iff (s : String) :
    (∃ msg, parseEquation s = Except.error msg) ↔
      ('=' ∉ stripWS s.data ∨
        (stripWS s.data).takeWhile (fun c => c != '=') = []) :=
  parse_error_iff_core s

/-- **C2, counterexample to the claim as stated.**  The stripped input
`"X^1="` contains exactly one `'='` with an empty right-hand side, so the
claim requires a `FormatError`; the code happily returns a result (it only
checks that the part before the first `'='` is non-empty and that a second
split piece exists, and `""` is such a piece). -/
theorem parse_error_counterexample :
    stripWS "X^1=".data = ['X', '^', '1', '='] ∧
    (parseEquation "X^1=").toOption.isSome = true := by
  constructor
  · decide
  · decide

/-- Witness for C2 at `"5 * X^2"` (no `'='`: error raised) and
`"X^1 = X^0"` (well-formed: no error). -/
theorem parse_error_iff_witness :
    (∃ msg, parseEquation "5 * X^2" = Except.error msg) ∧
    ¬ (∃ msg, parseEquation "X^1 = X^0" = Except.error msg) := by
  constructor
  · exact (parse_error_iff "5 * X^2").mpr (by decide)
  · intro h
    have := (parse_error_iff "X^1 = X^0").mp h
    revert this
    decide

/-! ### C10: unrecognized content is skipped, never an error -/

theorem eatSign_sublist (l : List Char) : (eatSign l).2.Sublist l := by
  cases l with
  | nil => simp [eatSign]
  | cons c rest =>
    simp only [eatSign]
    split
    · exact List.sublist_cons_self c rest
    · exact List.Sublist.refl _

theorem eatStar_sublist (l : List Char) : (eatStar l).Sublist l := by
  unfold eatStar
  split
  · exact List.sublist_cons_self _ _
  · exact List.Sublist.refl _

theorem eatDot_sublist (l : List Char) : (eatDot l).2.Sublist l := by
  unfold eatDot
  split
  · exact List.sublist_cons_self _ _
  · exact List.Sublist.refl _

theorem matchTermFrom_mem_X {l r : List Char} {t : RawTerm}
    (h : matchTermFrom l = some (t, r)) : 'X' ∈ l := by
  unfold matchTermFrom at h
  dsimp only at h
  split at h
  case _ x l6 heq =>
    have hX : 'X' ∈ eatStar ((eatDot ((eatSign l).2.dropWhile
        Char.isDigit)).2.dropWhile Char.isDigit) := by
      rw [heq]; exact List.mem_cons_self _ _
    have hsub : (eatStar ((eatDot ((eatSign l).2.dropWhile
        Char.isDigit)).2.dropWhile Char.isDigit)).Sublist l :=
      ((((eatStar_sublist _).trans (List.dropWhile_sublist _)).trans
        (eatDot_sublist _)).trans (List.dropWhile_sublist _)).trans
        (eatSign_sublist l)
    exact hsub.subset hX
  case _ => exact absurd h (by simp)

theorem eatConstNum_sublist {l n r : List Char}
    (h : eatConstNum l = some (n, r)) : r.Sublist l := by
  unfold eatConstNum at h
  dsimp only at h
  split at h
  case _ rr hdw =>
    split at h
    · exact absurd h (by simp)
    · injection h with h1; injection h1 with _ h2
      rw [← h2]
      have h3 : rr.Sublist ('.' :: rr) := List.sublist_cons_self _ _
      have h4 : ('.' :: rr).Sublist l := by
        rw [← hdw]; exact List.dropWhile_sublist _
      exact (List.dropWhile_sublist _).trans (h3.trans h4)
  case _ =>
    split at h
    · exact absurd h (by simp)
    · injection h with h1; injection h1 with _ h2
      rw [← h2]
      exact List.dropWhile_sublist _

theorem matchConstFrom_mem_X {l r : List Char} {v : ℚ}
    (h : matchConstFrom l = some (v, r)) : 'X' ∈ l := by
  unfold matchConstFrom at h
  dsimp only at h
  split at h
  case _ => exact absurd h (by simp)
  case _ numcs l3 hnum =>
    split at h
    case _ l5 heq =>
      have hX : 'X' ∈ eatStar l3 := by
        rw [heq]; exact List.mem_cons_self _ _
      have hsub : (eatStar l3).Sublist l :=
        ((eatStar_sublist _).trans (eatConstNum_sublist hnum)).trans
          (eatSign_sublist l)
      exact hsub.subset hX
    case _ => exact absurd h (by simp)

theorem scanTermsGo_nil_of_not_mem_X {fuel l : List Char}
    (h : 'X' ∉ l) : scanTermsGo fuel l = [] := by
  induction fuel generalizing l with
  | nil => rfl
  | cons f fuel ih =>
    cases l with
    | nil => rfl
    | cons c rest =>
      cases hm : matchTermFrom (c :: rest) with
      | some tr =>
        obtain ⟨t, r⟩ := tr
        exact absurd (matchTermFrom_mem_X hm) h
      | none =>
        simp only [scanTermsGo, hm]
        exact ih fun hx => h (List.mem_cons_of_mem _ hx)

theorem extractConstantGo_zero_of_not_mem_X {fuel l : List Char}
    (h : 'X' ∉ l) : extractConstantGo fuel l = 0 := by
  induction fuel generalizing l with
  | nil => rfl
  | cons f fuel ih =>
    cases l with
    | nil => rfl
    | cons c rest =>
      cases hm : matchConstFrom (c :: rest) with
      | some vr =>
        obtain ⟨v, r⟩ := vr
        exact absurd (matchConstFrom_mem_X hm) h
      | none =>
        simp only [extractConstantGo, hm]
        exact ih fun hx => h (List.mem_cons_of_mem _ hx)

theorem extractTerms_nil_of_not_mem_X {l : List Char} (h : 'X' ∉ l) :
    extractTerms l = [] := by
  unfold extractTerms scanTerms
  rw [scanTermsGo_nil_of_not_mem_X h]
  rfl

theorem extractConstant_zero_of_not_mem_X {l : List Char} (h : 'X' ∉ l) :
    extractConstant l = 0 :=
  extractConstantGo_zero_of_not_mem_X h

/-- **C10.** If the whitespace-stripped input has an `'='` with a non-empty
part before it, the parser never raises an error, whatever the rest of the
content is.  If moreover neither side contains the variable marker `'X'`
(so no term and no constant can match), the canonical mapping is exactly
`{0: 0}` and the solver reports degree 0 with every real number a
solution. -/
theorem garbage_input_tolerated (s : String)
    (hmem : '=' ∈ stripWS s.data)
    (hlhs : (stripWS s.data).takeWhile (fun c => c != '=') ≠ []) :
    (∃ m, parseEquation s = Except.ok m) ∧
    (∀ lhs rhs rest, splitEq (stripWS s.data) = lhs :: rhs :: rest →
      'X' ∉ lhs → 'X' ∉ rhs →
      parseEquation s = Except.ok [(0, 0)] ∧
      solvePolynomial [(0, 0)] =
        some ⟨0, none, some [], "All real numbers are solutions."⟩) := by
  constructor
  · have hne : ¬ ∃ msg, parseEquation s = Except.error msg := by
      intro h
      rcases (parse_error_iff_core s).mp h with h' | h'
      · exact h' hmem
      · exact hlhs h'
    cases hp : parseEquation s with
    | error msg => exact absurd ⟨msg, hp⟩ hne
    | ok m => exact ⟨m, rfl⟩
  · intro lhs rhs rest hsp hX1 hX2
    have hlhsne : ¬ lhs.isEmpty = true := by
      obtain ⟨ps, hps⟩ := splitEq_head (stripWS s.data)
      rw [hps] at hsp
      have : lhs = (stripWS s.data).takeWhile (fun c => c != '=') :=
        (List.cons.inj hsp).1.symm
      rw [this]
      simpa using hlhs
    constructor
    · unfold parseEquation
      dsimp only
      rw [hsp]
      dsimp only
      rw [if_neg hlhsne, extractTerms_nil_of_not_mem_X hX1,
        extractTerms_nil_of_not_mem_X hX2,
        extractConstant_zero_of_not_mem_X hX1,
        extractConstant_zero_of_not_mem_X hX2]
      norm_num [combineSides, keysOf, setKey]
    · have hdeg : determineDegree [((0 : ℕ), (0 : ℚ))] = some 0 := by decide
      simp only [solvePolynomial, hdeg]
      norm_num [getD, lookupC]

/-! ### Concrete evaluation scaffolding for the parser -/

/-- Chain a concrete split and concrete per-side evaluations into a full
`parseEquation` evaluation. -/
theorem parseEquation_eval {s : String} {lhs rhs : List Char}
    {ps : List (List Char)} {lt rt : CoeffMap} {cl cr : ℚ}
    (hsplit : splitEq (stripWS s.data) = lhs :: rhs :: ps)
    (hne : lhs.isEmpty = false)
    (hlt : extractTerms lhs = lt) (hrt : extractTerms rhs = rt)
    (hcl : extractConstant lhs = cl) (hcr : extractConstant rhs = cr) :
    parseEquation s = Except.ok (combineSides lt rt cl cr) := by
  unfold parseEquation
  dsimp only
  rw [hsplit]
  dsimp only
  simp only [hne, Bool.false_eq_true, if_false, hlt, hrt, hcl, hcr]

/-! ### C8: default coefficient of magnitude 1 for omitted coefficients -/

theorem extractTerms_bare_negX2 : extractTerms ['-', 'X', '^', '2'] = [(2, 1)] := by
  have hscan : scanTerms ['-', 'X', '^', '2'] = [⟨some '-', [], ['2']⟩] := by decide
  unfold extractTerms
  rw [hscan]
  simp [termValue, digitsToNat, addTerm, parseFloatQ]

theorem extractTerms_zeroX0 : extractTerms ['0', '*', 'X', '^', '0'] = [(0, 0)] := by
  have hscan : scanTerms ['0', '*', 'X', '^', '0'] = [⟨none, ['0'], ['0']⟩] := by
    decide
  unfold extractTerms
  rw [hscan]
  simp [termValue, digitsToNat, addTerm, parseFloatQ, List.takeWhile, List.dropWhile]

theorem extractTerms_bareX0 : extractTerms ['X', '^', '0'] = [(0, 1)] := by
  have hscan : scanTerms ['X', '^', '0'] = [⟨none, [], ['0']⟩] := by decide
  unfold extractTerms
  rw [hscan]
  simp [termValue, digitsToNat, addTerm, parseFloatQ]

theorem extractTerms_bareX1 : extractTerms ['X', '^', '1'] = [(1, 1)] := by
  have hscan : scanTerms ['X', '^', '1'] = [⟨none, [], ['1']⟩] := by decide
  unfold extractTerms
  rw [hscan]
  simp [termValue, digitsToNat, addTerm, parseFloatQ]

theorem extractConstant_bare_negX2 : extractConstant ['-', 'X', '^', '2'] = 0 := by
  simp [extractConstant, extractConstantGo, matchConstFrom, eatConstNum, eatSign,
    eatStar, List.takeWhile, List.dropWhile, parseFloatQ, digitsToNat]

theorem extractConstant_zeroX0 : extractConstant ['0', '*', 'X', '^', '0'] = 0 := by
  simp [extractConstant, extractConstantGo, matchConstFrom, eatConstNum, eatSign,
    eatStar, List.takeWhile, List.dropWhile, parseFloatQ, digitsToNat]

theorem extractConstant_bareX0 : extractConstant ['X', '^', '0'] = 0 := by
  simp [extractConstant, extractConstantGo, matchConstFrom, eatConstNum, eatSign,
    eatStar, List.takeWhile, List.dropWhile, parseFloatQ, digitsToNat]

theorem extractConstant_bareX1 : extractConstant ['X', '^', '1'] = 0 := by
  simp [extractConstant, extractConstantGo, matchConstFrom, eatConstNum, eatSign,
    eatStar, List.takeWhile, List.dropWhile, parseFloatQ, digitsToNat]

/-- **C8 (the code contradicts its own comment).**  Line 33 of
`src/polinom.js` says `-X^2` has an implied coefficient of `-1`, and the
spec says the same; but the code assigns `coefficient = -1` *and* still
multiplies by `sign = -1`, so the bare term `-X^2` contributes `+1`:
`parseEquation "-X^2=0*X^0"` yields `{2: +1}`.  Separately, a bare `X^0`
(omitted coefficient at exponent 0) contributes `+1` only to the per-side
term mapping; the canonical constant is recomputed by `extractConstant`,
whose regex demands an explicit digit, so `parseEquation "X^0=X^1"` yields
constant `0`, not the `+1` the claim requires. -/
theorem omitted_coefficient_sign_bug :
    parseEquation "-X^2=0*X^0" = Except.ok [(2, 1), (0, 0)] ∧
    termValue ⟨some '-', [], ['2']⟩ = 1 ∧
    parseEquation "X^0=X^1" = Except.ok [(0, 0), (1, -1)] := by
  refine ⟨?_, ?_, ?_⟩
  · have h := @parseEquation_eval "-X^2=0*X^0" ['-', 'X', '^', '2']
      ['0', '*', 'X', '^', '0'] [] [(2, 1)] [(0, 0)] 0 0
      (by decide) (by decide) extractTerms_bare_negX2 extractTerms_zeroX0
      extractConstant_bare_negX2 extractConstant_zeroX0
    rw [h]
    simp [combineSides, keysOf, setKey, getD, lookupC, List.dedup]
  · simp [termValue]
  · have h := @parseEquation_eval "X^0=X^1" ['X', '^', '0'] ['X', '^', '1']
      [] [(0, 1)] [(1, 1)] 0 0
      (by decide) (by decide) extractTerms_bareX0 extractTerms_bareX1
      extractConstant_bareX0 extractConstant_bareX1
    rw [h]
    simp [combineSides, keysOf, setKey, getD, lookupC, List.dedup]

/-! ### C1: the combiner's canonical mapping -/

theorem lookupC_map {exps : List ℕ} {f : ℕ → ℚ} {x : ℕ} :
    lookupC (exps.map fun e => (e, f e)) x =
      if x ∈ exps then some (f x) else none := by
  induction exps with
  | nil => simp [lookupC]
  | cons e es ih =>
    simp only [List.map_cons, lookupC, List.mem_cons]
    by_cases he : e = x
    · subst he
      simp
    · rw [if_neg he, ih]
      by_cases hx : x ∈ es
      · simp [hx]
      · simp [hx, Ne.symm he]

theorem lookupC_setKey (m : CoeffMap) (e x : ℕ) (v : ℚ) :
    lookupC (setKey m e v) x = if x = e then some v else lookupC m x := by
  induction m with
  | nil =>
    show lookupC [(e, v)] x = if x = e then some v else lookupC [] x
    simp only [lookupC]
    by_cases hx : x = e
    · subst hx
      simp
    · rw [if_neg (fun h => hx h.symm), if_neg hx]
  | cons p rest ih =>
    obtain ⟨e', v'⟩ := p
    simp only [setKey]
    by_cases he : e' = e
    · subst he
      rw [if_pos rfl]
      simp only [lookupC]
      by_cases hx : e' = x
      · subst hx
        rw [if_pos rfl, if_pos rfl]
      · rw [if_neg hx, if_neg (fun h => hx h.symm), if_neg hx]
    · rw [if_neg he]
      simp only [lookupC]
      by_cases hx : e' = x
      · subst hx
        rw [if_pos rfl, if_neg he, if_pos rfl]
      · rw [if_neg hx, if_neg hx, ih]

theorem combineSides_spec (lt rt : CoeffMap) (cl cr : ℚ) :
    (∀ e, e ≠ 0 →
      lookupC (combineSides lt rt cl cr) e =
        if e ∈ keysOf lt ∨ e ∈ keysOf rt then some (getD lt e - getD rt e)
        else none) ∧
    lookupC (combineSides lt rt cl cr) 0 = some (cl - cr) := by
  constructor
  · intro e he
    unfold combineSides
    rw [lookupC_setKey, if_neg he, lookupC_map]
    by_cases hmem : e ∈ keysOf lt ∨ e ∈ keysOf rt
    · rw [if_pos (List.mem_dedup.mpr (List.mem_append.mpr hmem)), if_pos hmem]
    · rw [if_neg (fun h => hmem (List.mem_append.mp (List.mem_dedup.mp h))),
        if_neg hmem]
  · unfold combineSides
    rw [lookupC_setKey, if_pos rfl]

/-- **C1 (amended).** For every valid input, the canonical mapping satisfies
`canonical[e] = lhsTerms[e] - rhsTerms[e]` for every *non-zero* exponent
present on either side, has no key for non-zero exponents absent from both
sides (so they read as 0), and always contains the key 0 — but the constant
slot is *not* `lhsTerms[0] - rhsTerms[0]`: it is overwritten with the
difference of the two `extractConstant` scans, whose stricter regex demands
an explicit numeric coefficient. -/
theorem combiner_canonical (s : String) (lhs rhs : List Char)
    (ps : List (List Char))
    (hsplit : splitEq (stripWS s.data) = lhs :: rhs :: ps)
    (hne : lhs.isEmpty = false) :
    ∃ m, parseEquation s = Except.ok m ∧
      (∀ e, e ≠ 0 →
        lookupC m e =
          if e ∈ keysOf (extractTerms lhs) ∨ e ∈ keysOf (extractTerms rhs) then
            some (getD (extractTerms lhs) e - getD (extractTerms rhs) e)
          else none) ∧
      lookupC m 0 = some (extractConstant lhs - extractConstant rhs) := by
  refine ⟨combineSides (extractTerms lhs) (extractTerms rhs)
    (extractConstant lhs) (extractConstant rhs), ?_, ?_, ?_⟩
  · exact parseEquation_eval hsplit hne rfl rfl rfl rfl
  · exact (combineSides_spec _ _ _ _).1
  · exact (combineSides_spec _ _ _ _).2

/-- **C1, counterexample to the claim as stated.**  On the valid input
`"X^0=0*X^0"` the per-side mappings are `{0: 1}` (left, a bare `X^0`) and
`{0: 0}` (right), so the claim requires `canonical[0] = 1 - 0 = 1`; the
code produces `canonical[0] = 0`, because the constant slot is recomputed
by `extractConstant`, which does not match a coefficient-less `X^0`. -/
theorem combiner_canonical_counterexample :
    extractTerms ['X', '^', '0'] = [(0, 1)] ∧
    extractTerms ['0', '*', 'X', '^', '0'] = [(0, 0)] ∧
    splitEq (stripWS "X^0=0*X^0".data) =
      [['X', '^', '0'], ['0', '*', 'X', '^', '0']] ∧
    parseEquation "X^0=0*X^0" = Except.ok [(0, 0)] ∧
    ¬ lookupC [((0 : ℕ), (0 : ℚ))] 0 =
        some (getD [((0 : ℕ), (1 : ℚ))] 0 - getD [((0 : ℕ), (0 : ℚ))] 0) := by
  refine ⟨extractTerms_bareX0, extractTerms_zeroX0, by decide, ?_, ?_⟩
  · have h := @parseEquation_eval "X^0=0*X^0" ['X', '^', '0']
      ['0', '*', 'X', '^', '0'] [] [(0, 1)] [(0, 0)] 0 0
      (by decide) (by decide) extractTerms_bareX0 extractTerms_zeroX0
      extractConstant_bareX0 extractConstant_zeroX0
    rw [h]
    simp [combineSides, keysOf, setKey, getD, lookupC, List.dedup]
  · simp [getD, lookupC]

/-- Witness for C1's amended theorem at `"X^0=0*X^0"`. -/
theorem combiner_canonical_witness :
    ∃ m, parseEquation "X^0=0*X^0" = Except.ok m ∧
      (∀ e, e ≠ 0 →
        lookupC m e =
          if e ∈ keysOf (extractTerms ['X', '^', '0']) ∨
              e ∈ keysOf (extractTerms ['0', '*', 'X', '^', '0']) then
            some (getD (extractTerms ['X', '^', '0']) e -
              getD (extractTerms ['0', '*', 'X', '^', '0']) e)
          else none) ∧
      lookupC m 0 = some (extractConstant ['X', '^', '0'] -
        extractConstant ['0', '*', 'X', '^', '0']) :=
  combiner_canonical "X^0=0*X^0" ['X', '^', '0'] ['0', '*', 'X', '^', '0'] []
    (by decide) (by decide)

/-! ### C6: the synthetic `+ 1 * X^0` -/

theorem natDigitChar_isDigit {n : ℕ} (h : n < 10) :
    (natDigitChar n).isDigit = true := by
  interval_cases n <;> decide

theorem natDigitChar_ne_zero {n : ℕ} (h : n < 10) (h2 : n ≠ 0) :
    natDigitChar n ≠ '0' := by
  interval_cases n
  · exact absurd rfl h2
  all_goals decide

theorem natStr_digits (n : ℕ) : ∀ c ∈ natStr n, c.isDigit = true := by
  induction n using Nat.strong_induction_on with
  | _ n ih =>
    unfold natStr
    split
    case isTrue h =>
      intro c hc
      simp only [List.mem_singleton] at hc
      subst hc
      exact natDigitChar_isDigit h
    case isFalse h =>
      intro c hc
      rcases List.mem_append.mp hc with hm | hm
      · exact ih (n / 10) (Nat.div_lt_self (by omega) (by omega)) c hm
      · simp only [List.mem_singleton] at hm
        subst hm
        exact natDigitChar_isDigit (Nat.mod_lt _ (by omega))

theorem natStr_ne_nil (n : ℕ) : natStr n ≠ [] := by
  unfold natStr
  split
  · simp
  · simp

theorem natStr_head {n : ℕ} (h : n ≠ 0) :
    ∃ c t, natStr n = c :: t ∧ c ≠ '0' ∧ c.isDigit = true := by
  induction n using Nat.strong_induction_on with
  | _ n ih =>
    unfold natStr
    split
    case isTrue h10 =>
      exact ⟨natDigitChar n, [], rfl, natDigitChar_ne_zero h10 h,
        natDigitChar_isDigit h10⟩
    case isFalse h10 =>
      obtain ⟨c, t, hct, hc0, hcd⟩ :=
        ih (n / 10) (Nat.div_lt_self (by omega) (by omega))
          (by omega)
      exact ⟨c, t ++ [natDigitChar (n % 10)], by rw [hct]; rfl, hc0, hcd⟩

theorem natStr_getLast (n : ℕ) :
    ∃ c, (natStr n).getLast? = some c ∧ c.isDigit = true := by
  unfold natStr
  split
  case isTrue h => exact ⟨natDigitChar n, rfl, natDigitChar_isDigit h⟩
  case isFalse h =>
    refine ⟨natDigitChar (n % 10), List.getLast?_concat _, ?_⟩
    exact natDigitChar_isDigit (Nat.mod_lt _ (by omega))

theorem natStrPad_digits (n k : ℕ) : ∀ c ∈ natStrPad n k, c.isDigit = true := by
  induction k generalizing n with
  | zero => simp [natStrPad]
  | succ k ih =>
    intro c hc
    unfold natStrPad at hc
    rcases List.mem_append.mp hc with hm | hm
    · exact ih _ c hm
    · simp only [List.mem_singleton] at hm
      subst hm
      exact natDigitChar_isDigit (Nat.mod_lt _ (by omega))

theorem ratToStr_chars (q : ℚ) : ∀ c ∈ ratToStr q, c.isDigit = true ∨ c = '.' := by
  unfold ratToStr
  dsimp only
  split
  · intro c hc
    exact Or.inl (natStr_digits _ c hc)
  · intro c hc
    rcases List.mem_append.mp hc with hm | hm
    · exact Or.inl (natStr_digits _ c hm)
    · rcases List.mem_cons.mp hm with hm | hm
      · exact Or.inr hm
      · exact Or.inl (natStrPad_digits _ _ c hm)

theorem ratToStr_ne_nil (q : ℚ) : ratToStr q ≠ [] := by
  unfold ratToStr
  dsimp only
  split
  · exact natStr_ne_nil _
  · intro h
    exact natStr_ne_nil _ (List.append_eq_nil.mp h).1

theorem natStrPad_ne_nil (n : ℕ) {k : ℕ} (hk : k ≠ 0) : natStrPad n k ≠ [] := by
  cases k with
  | zero => exact absurd rfl hk
  | succ k =>
    unfold natStrPad
    simp

theorem natStrPad_getLast (n : ℕ) {k : ℕ} (hk : k ≠ 0) :
    ∃ c, (natStrPad n k).getLast? = some c ∧ c.isDigit = true := by
  cases k with
  | zero => exact absurd rfl hk
  | succ k =>
    exact ⟨natDigitChar (n % 10), List.getLast?_concat _,
      natDigitChar_isDigit (Nat.mod_lt _ (by omega))⟩

theorem getLast?_append_right {a b : List Char} (hb : b ≠ []) :
    (a ++ b).getLast? = b.getLast? := by
  induction a with
  | nil => rfl
  | cons c a ih =>
    rw [List.cons_append]
    cases hab : a ++ b with
    | nil => exact absurd (List.append_eq_nil.mp hab).2 hb
    | cons x xs =>
      rw [List.getLast?_cons_cons, ← hab, ih]

theorem ratToStr_getLast (q : ℚ) :
    ∃ c, (ratToStr q).getLast? = some c ∧ c.isDigit = true := by
  unfold ratToStr
  dsimp only
  split
  · exact natStr_getLast _
  case isFalse hk =>
    obtain ⟨c, hc, hcd⟩ := natStrPad_getLast
      ((q * 10 ^ tenExp q.den).num.toNat % 10 ^ tenExp q.den) hk
    refine ⟨c, ?_, hcd⟩
    rw [getLast?_append_right (by simp), show ('.' ::
        natStrPad ((q * 10 ^ tenExp q.den).num.toNat % 10 ^ tenExp q.den)
          (tenExp q.den)) = ['.'] ++
        natStrPad ((q * 10 ^ tenExp q.den).num.toNat % 10 ^ tenExp q.den)
          (tenExp q.den) from rfl,
      getLast?_append_right (natStrPad_ne_nil _ hk), hc]

theorem isPre_x_false {c : Char} {t : List Char} (h : c ≠ 'X') :
    isPre xZeroPat (c :: t) = false := by
  simp only [xZeroPat, isPre, Bool.and_eq_false_iff]
  left
  simp
  exact fun hh => h hh.symm

theorem hasSub_nil_x : hasSub [] xZeroPat = false := rfl

theorem hasSub_x_of_digits {l : List Char} (h : ∀ c ∈ l, c.isDigit = true) :
    hasSub l xZeroPat = false := by
  induction l with
  | nil => rfl
  | cons c t ih =>
    simp only [hasSub, Bool.or_eq_false_iff]
    refine ⟨isPre_x_false ?_, ih fun x hx => h x (List.mem_cons_of_mem _ hx)⟩
    intro hc
    have := h c (List.mem_cons_self _ _)
    rw [hc] at this
    exact absurd this (by decide)

theorem hasSub_append_of_no_x {u v : List Char} (hu : ∀ c ∈ u, c ≠ 'X')
    (hv : hasSub v xZeroPat = false) : hasSub (u ++ v) xZeroPat = false := by
  induction u with
  | nil => exact hv
  | cons c t ih =>
    rw [List.cons_append]
    simp only [hasSub, Bool.or_eq_false_iff]
    exact ⟨isPre_x_false (hu c (List.mem_cons_self _ _)),
      ih fun x hx => hu x (List.mem_cons_of_mem _ hx)⟩

theorem isPre_append_of_le {p a b : List Char} (h : p.length ≤ a.length) :
    isPre p (a ++ b) = isPre p a := by
  induction p generalizing a with
  | nil => rfl
  | cons x ps ih =>
    cases a with
    | nil => simp at h
    | cons c t =>
      rw [List.cons_append]
      simp only [isPre]
      rw [ih (by simpa using h)]

theorem hasSub_append_digit_last {a b : List Char}
    (ha : hasSub a xZeroPat = false) (hb : hasSub b xZeroPat = false)
    (hlast : ∃ c, a.getLast? = some c ∧ c.isDigit = true) :
    hasSub (a ++ b) xZeroPat = false := by
  induction a with
  | nil => exact hb
  | cons c t ih =>
    simp only [hasSub, Bool.or_eq_false_iff] at ha
    rw [List.cons_append]
    simp only [hasSub, Bool.or_eq_false_iff]
    obtain ⟨cl, hcl, hcld⟩ := hlast
    cases t with
    | nil =>
      have hc : c = cl := by
        simp only [List.getLast?_singleton] at hcl
        exact (Option.some.inj hcl)
      refine ⟨isPre_x_false ?_, hb⟩
      intro hcx
      rw [hc] at hcx
      rw [hcx] at hcld
      exact absurd hcld (by decide)
    | cons d t' =>
      have hlast' : ∃ x, (d :: t').getLast? = some x ∧ x.isDigit = true := by
        rw [List.getLast?_cons_cons] at hcl
        exact ⟨cl, hcl, hcld⟩
      refine ⟨?_, ih ha.2 hlast'⟩
      cases t' with
      | nil =>
        obtain ⟨x, hx, hxd⟩ := hlast'
        have hdx : d = x := by
          simp only [List.getLast?_singleton] at hx
          exact Option.some.inj hx
        subst hdx
        simp only [List.cons_append, List.nil_append, xZeroPat, isPre,
          Bool.and_eq_false_iff]
        by_cases hcx : c = 'X'
        · right
          left
          have : d ≠ '^' := by
            intro hh
            rw [hh] at hxd
            exact absurd hxd (by decide)
          simp
          exact fun hh => this hh.symm
        · left
          simp
          exact fun hh => hcx hh.symm
      | cons d2 t2 =>
        have hlen : (xZeroPat).length ≤ (c :: d :: d2 :: t2).length := by
          simp [xZeroPat]
        show isPre xZeroPat ((c :: d :: d2 :: t2) ++ b) = false
        rw [isPre_append_of_le hlen]
        exact ha.1

theorem hasSub_var_suffix {ds : List Char} (hds : ∀ c ∈ ds, c.isDigit = true)
    (hhead : ∀ c t, ds = c :: t → c ≠ '0') :
    hasSub ([' ', '*', ' ', 'X', '^'] ++ ds) xZeroPat = false := by
  simp only [List.cons_append, List.nil_append, hasSub, Bool.or_eq_false_iff]
  refine ⟨isPre_x_false (by decide), isPre_x_false (by decide),
    isPre_x_false (by decide), ?_, isPre_x_false (by decide),
    hasSub_x_of_digits hds⟩
  cases ds with
  | nil => decide
  | cons c t =>
    simp only [xZeroPat, isPre, Bool.and_eq_false_iff]
    right
    right
    left
    simp
    exact fun hh => hhead c t rfl hh.symm

theorem termChunk_ne_nil (first : Bool) (e : ℕ) (v : ℚ) :
    termChunk first e v ≠ [] := by
  unfold termChunk
  intro h
  rcases List.append_eq_nil.mp h with ⟨h12, _⟩
  exact ratToStr_ne_nil _ (List.append_eq_nil.mp h12).2

theorem termChunk_getLast (first : Bool) (e : ℕ) (v : ℚ) :
    ∃ c, (termChunk first e v).getLast? = some c ∧ c.isDigit = true := by
  unfold termChunk
  by_cases he : e ≠ 0
  · obtain ⟨c, hc, hcd⟩ := natStr_getLast e
    refine ⟨c, ?_, hcd⟩
    rw [if_pos he, getLast?_append_right (by simp),
      getLast?_append_right (natStr_ne_nil e), hc]
  · obtain ⟨c, hc, hcd⟩ := ratToStr_getLast |v|
    refine ⟨c, ?_, hcd⟩
    rw [if_neg he, List.append_nil, getLast?_append_right (ratToStr_ne_nil _), hc]

theorem termChunk_hasSub (first : Bool) (e : ℕ) (v : ℚ) :
    hasSub (termChunk first e v) xZeroPat = false := by
  unfold termChunk
  have hsign : ∀ c ∈ (if first then (if (0 : ℚ) ≤ v then ([] : List Char)
      else ['-', ' ']) else (if (0 : ℚ) ≤ v then [' ', '+', ' ']
      else [' ', '-', ' '])), c ≠ 'X' := by
    split <;> split <;> simp +decide
  have hnum : ∀ c ∈ ratToStr |v|, c ≠ 'X' := by
    intro c hc
    rcases ratToStr_chars |v| c hc with hd | hd
    · intro hh; rw [hh] at hd; exact absurd hd (by decide)
    · intro hh; rw [hh] at hd; exact absurd hd (by decide)
  have hsuffix : hasSub (if e ≠ 0 then [' ', '*', ' ', 'X', '^'] ++ natStr e
      else []) xZeroPat = false := by
    split
    case isTrue he =>
      refine hasSub_var_suffix (natStr_digits e) ?_
      intro c t hct hc0
      obtain ⟨c', t', hct', hc0', _⟩ := natStr_head he
      rw [hct'] at hct
      injection hct with hh1 hh2
      exact hc0' (hh1.trans hc0)
    case isFalse => rfl
  rw [List.append_assoc]
  exact hasSub_append_of_no_x hsign (hasSub_append_of_no_x hnum hsuffix)

theorem bodyFold_invariant (m : CoeffMap) (exps : List ℕ) (acc : List Char)
    (hsub : hasSub acc xZeroPat = false)
    (hlast : acc = [] ∨ ∃ c, acc.getLast? = some c ∧ c.isDigit = true) :
    hasSub (exps.foldl (fun acc e =>
      let v := getD m e
      if v = 0 then acc else acc ++ termChunk acc.isEmpty e v) acc) xZeroPat =
        false ∧
    ((exps.foldl (fun acc e =>
      let v := getD m e
      if v = 0 then acc else acc ++ termChunk acc.isEmpty e v) acc) = [] ∨
      ∃ c, (exps.foldl (fun acc e =>
        let v := getD m e
        if v = 0 then acc else acc ++ termChunk acc.isEmpty e v)
          acc).getLast? = some c ∧ c.isDigit = true) := by
  induction exps generalizing acc with
  | nil => exact ⟨hsub, hlast⟩
  | cons e rest ih =>
    simp only [List.foldl_cons]
    by_cases hv : getD m e = 0
    · simp only [hv, if_pos rfl]
      exact ih acc hsub hlast
    · simp only [if_neg hv]
      rcases hlast with hnil | ⟨c, hc, hcd⟩
      · subst hnil
        simp only [List.nil_append]
        exact ih _ (termChunk_hasSub _ _ _) (Or.inr (termChunk_getLast _ _ _))
      · refine ih _ ?_ ?_
        · exact hasSub_append_digit_last hsub (termChunk_hasSub _ _ _)
            ⟨c, hc, hcd⟩
        · right
          obtain ⟨c', hc', hcd'⟩ := termChunk_getLast acc.isEmpty e (getD m e)
          exact ⟨c', by rw [getLast?_append_right (termChunk_ne_nil _ _ _), hc'],
            hcd'⟩

theorem bodyFold_all_zero (m : CoeffMap) (exps : List ℕ) (acc : List Char)
    (h : ∀ e ∈ exps, getD m e = 0) :
    exps.foldl (fun acc e =>
      let v := getD m e
      if v = 0 then acc else acc ++ termChunk acc.isEmpty e v) acc = acc := by
  induction exps generalizing acc with
  | nil => rfl
  | cons e rest ih =>
    simp only [List.foldl_cons, h e (List.mem_cons_self _ _), if_pos rfl]
    exact ih acc fun x hx => h x (List.mem_cons_of_mem _ hx)

theorem bodyFold_ne_nil (m : CoeffMap) (exps : List ℕ) (acc : List Char)
    (hacc : acc ≠ []) :
    exps.foldl (fun acc e =>
      let v := getD m e
      if v = 0 then acc else acc ++ termChunk acc.isEmpty e v) acc ≠ [] := by
  induction exps generalizing acc with
  | nil => exact hacc
  | cons e rest ih =>
    simp only [List.foldl_cons]
    by_cases hv : getD m e = 0
    · simp only [hv, if_pos rfl]
      exact ih acc hacc
    · simp only [if_neg hv]
      refine ih _ ?_
      intro hh
      exact termChunk_ne_nil _ _ _ (List.append_eq_nil.mp hh).2

theorem bodyFold_exists_nonzero (m : CoeffMap) (exps : List ℕ) (acc : List Char)
    (h : ∃ e ∈ exps, getD m e ≠ 0) :
    exps.foldl (fun acc e =>
      let v := getD m e
      if v = 0 then acc else acc ++ termChunk acc.isEmpty e v) acc ≠ [] := by
  induction exps generalizing acc with
  | nil => simp at h
  | cons e rest ih =>
    simp only [List.foldl_cons]
    by_cases hv : getD m e = 0
    · simp only [hv, if_pos rfl]
      rcases h with ⟨e', he', hne⟩
      rcases List.mem_cons.mp he' with rfl | hmem
      · exact absurd hv hne
      · exact ih acc ⟨e', hmem, hne⟩
    · simp only [if_neg hv]
      refine bodyFold_ne_nil m rest _ ?_
      intro hh
      exact termChunk_ne_nil _ _ _ (List.append_eq_nil.mp hh).2

theorem mem_insertSorted {x e : ℕ} {l : List ℕ} :
    x ∈ insertSorted e l ↔ x = e ∨ x ∈ l := by
  induction l with
  | nil => simp [insertSorted]
  | cons a t ih =>
    unfold insertSorted
    split
    · simp
    · simp only [List.mem_cons, ih]
      tauto

theorem mem_sortAsc {x : ℕ} {l : List ℕ} : x ∈ sortAsc l ↔ x ∈ l := by
  induction l with
  | nil => simp [sortAsc]
  | cons a t ih =>
    show x ∈ insertSorted a (sortAsc t) ↔ _
    rw [mem_insertSorted, ih]
    simp

/-- The full behaviour of the renderer's synthetic-constant rule: the body
never contains the substring `X^0` (exponent-0 terms are printed without a
variable suffix), so ` + 1 * X^0` is appended exactly when the body is
non-empty, i.e. exactly when some coefficient of the mapping is non-zero. -/
theorem generateReducedForm_eq (m : CoeffMap) :
    ((∀ e ∈ keysOf m, getD m e = 0) → generateReducedForm m = "0 = 0") ∧
    ((∃ e ∈ keysOf m, getD m e ≠ 0) →
      generateReducedForm m =
        ⟨bodyAcc m (sortAsc (keysOf m).dedup) ++ synthChunk ++
          [' ', '=', ' ', '0']⟩ ∧
      bodyAcc m (sortAsc (keysOf m).dedup) ≠ []) := by
  constructor
  · intro hz
    unfold generateReducedForm
    dsimp only
    have hbody : bodyAcc m (sortAsc (keysOf m).dedup) = [] := by
      unfold bodyAcc
      exact bodyFold_all_zero m _ []
        fun e he => hz e (List.mem_dedup.mp (mem_sortAsc.mp he))
    rw [hbody]
    rfl
  · intro ⟨e, he, hne⟩
    have hbody : bodyAcc m (sortAsc (keysOf m).dedup) ≠ [] := by
      unfold bodyAcc
      exact bodyFold_exists_nonzero m _ []
        ⟨e, mem_sortAsc.mpr (List.mem_dedup.mpr he), hne⟩
    have hsub : hasSub (bodyAcc m (sortAsc (keysOf m).dedup)) xZeroPat = false :=
      (bodyFold_invariant m _ [] rfl (Or.inl rfl)).1
    refine ⟨?_, hbody⟩
    unfold generateReducedForm
    dsimp only
    rw [hsub]
    have hlen : 0 < (bodyAcc m (sortAsc (keysOf m).dedup)).length :=
      List.length_pos.mpr hbody
    have h1 : (decide ((bodyAcc m (sortAsc (keysOf m).dedup)).length > 0) &&
        !false) = true := by
      simp [hlen]
    rw [h1, if_pos rfl]
    have h2 : (bodyAcc m (sortAsc (keysOf m).dedup) ++ synthChunk).isEmpty =
        false := by
      rw [List.isEmpty_eq_false]
      intro hh
      exact hbody (List.append_eq_nil.mp hh).1
    rw [h2, if_neg (by simp)]

/-- **C6 (amended).** The renderer appends the synthetic ` + 1 * X^0`
exactly when the mapping has at least one non-zero coefficient: the body
never contains the literal substring `X^0` (constant terms are printed as a
bare number, and printed exponents never start with the digit 0), so the
`indexOf('X^0') === -1` test at line 131 always passes once anything was
printed — including when an exponent-0 term *was* printed in the body. -/
theorem renderer_synthetic_constant (m : CoeffMap) :
    ((∀ e ∈ keysOf m, getD m e = 0) → generateReducedForm m = "0 = 0") ∧
    ((∃ e ∈ keysOf m, getD m e ≠ 0) →
      generateReducedForm m =
        ⟨bodyAcc m (sortAsc (keysOf m).dedup) ++ synthChunk ++
          [' ', '=', ' ', '0']⟩ ∧
      bodyAcc m (sortAsc (keysOf m).dedup) ≠ []) :=
  generateReducedForm_eq m

/-- **C6, counterexample to the claim as stated.**  For the mapping
`{0: 5}` the constant term *is* printed in the body (the body is `"5"`),
yet the renderer still appends the synthetic ` + 1 * X^0`, because the
printed constant carries no `X^0` marker for `indexOf` to find: the output
is `"5 + 1 * X^0 = 0"`, not `"5 = 0"`. -/
theorem generateReducedForm_const5 :
    generateReducedForm [((0 : ℕ), (5 : ℚ))] = "5 + 1 * X^0 = 0" := by
  have h := (generateReducedForm_eq [((0 : ℕ), (5 : ℚ))]).2
    ⟨0, by decide, by norm_num [getD, lookupC]⟩
  rw [h.1]
  have hsort : sortAsc (keysOf [((0 : ℕ), (5 : ℚ))]).dedup = [0] := by decide
  rw [hsort]
  have hb : bodyAcc [((0 : ℕ), (5 : ℚ))] [0] = ['5'] := by
    simp only [bodyAcc, List.foldl_cons, List.foldl_nil]
    have hgd : getD [((0 : ℕ), (5 : ℚ))] 0 = 5 := by norm_num [getD, lookupC]
    rw [hgd]
    rw [if_neg (by norm_num)]
    simp only [List.nil_append, termChunk, List.isEmpty_nil]
    rw [if_pos trivial, if_pos (by norm_num), if_neg (by norm_num)]
    simp only [List.nil_append, List.append_nil]
    have habs : |(5 : ℚ)| = 5 := by norm_num
    rw [habs]
    unfold ratToStr
    dsimp only
    norm_num [tenExp, List.range_succ, Int.toNat_ofNat]
    rw [natStr]
    norm_num [natDigitChar]
    decide
  rw [hb]
  decide

theorem renderer_synthetic_counterexample :
    getD [((0 : ℕ), (5 : ℚ))] 0 = 5 ∧
    generateReducedForm [((0 : ℕ), (5 : ℚ))] = "5 + 1 * X^0 = 0" :=
  ⟨by norm_num [getD, lookupC], generateReducedForm_const5⟩

/-- Witness for C6's amended theorem at the all-zero mapping `{0: 0}` and at
`{1: 1}` (no printed constant, synthetic term appended). -/
theorem renderer_synthetic_constant_witness :
    generateReducedForm [((0 : ℕ), (0 : ℚ))] = "0 = 0" ∧
    generateReducedForm [((1 : ℕ), (1 : ℚ))] =
      ⟨bodyAcc [((1 : ℕ), (1 : ℚ))]
        (sortAsc (keysOf [((1 : ℕ), (1 : ℚ))]).dedup) ++ synthChunk ++
        [' ', '=', ' ', '0']⟩ := by
  constructor
  · refine (renderer_synthetic_constant [((0 : ℕ), (0 : ℚ))]).1 ?_
    intro e he
    have : e = 0 := by
      simp [keysOf] at he
      exact he
    subst this
    norm_num [getD, lookupC]
  · exact ((renderer_synthetic_constant [((1 : ℕ), (1 : ℚ))]).2
      ⟨1, by decide, by norm_num [getD, lookupC]⟩).1

/-- Witness for C10 at `"ab = qq"`: parses without error to `{0: 0}` and is
solved as "all reals". -/
theorem garbage_input_tolerated_witness :
    (∃ m, parseEquation "ab = qq" = Except.ok m) ∧
    parseEquation "ab = qq" = Except.ok [(0, 0)] ∧
    solvePolynomial [(0, 0)] =
      some ⟨0, none, some [], "All real numbers are solutions."⟩ :=
  ⟨(garbage_input_tolerated "ab = qq" (by decide) (by decide)).1,
   (garbage_input_tolerated "ab = qq" (by decide) (by decide)).2
     ['a', 'b'] ['q', 'q'] [] (by decide) (by decide) (by decide)⟩

/-! ### C7: round-tripping the reduced form through the parser -/

/-- Characters that can occur strictly inside a (signed) number. -/
abbrev numericChar (c : Char) : Prop :=
  c.isDigit = true ∨ c = '.' ∨ c = '+' ∨ c = '-'

/-- A "blocking" string for the scanners: empty, or starting with a
character that no in-progress match can consume and that cannot open the
variable marker. -/
abbrev blockHead (v : List Char) : Prop :=
  ∀ c t, v = c :: t → c.isDigit = false ∧ c ≠ '.' ∧ c ≠ '*' ∧ c ≠ 'X'

theorem eatSign_cons (c : Char) (l : List Char) :
    eatSign (c :: l) =
      if c = '+' || c = '-' then (some c, l) else (none, c :: l) := rfl

theorem eatSign_shape {w v : List Char} (hw : w ≠ []) :
    ∃ w', (eatSign (w ++ v)).2 = w' ++ v ∧ ∀ c ∈ w', c ∈ w := by
  cases w with
  | nil => exact absurd rfl hw
  | cons c t =>
    rw [List.cons_append]
    by_cases hc : (c = '+' || c = '-' : Bool) = true
    · refine ⟨t, ?_, fun x hx => List.mem_cons_of_mem _ hx⟩
      rw [eatSign_cons, if_pos hc]
    · refine ⟨c :: t, ?_, fun x hx => hx⟩
      rw [eatSign_cons, if_neg hc]
      rfl

theorem dropWhile_shape {p : Char → Bool} {w v : List Char}
    (hv : ∀ c t, v = c :: t → p c = false) :
    ∃ w', (w ++ v).dropWhile p = w' ++ v ∧ ∀ c ∈ w', c ∈ w := by
  induction w with
  | nil =>
    refine ⟨[], ?_, by simp⟩
    cases v with
    | nil => rfl
    | cons c t => simp [List.dropWhile_cons, hv c t rfl]
  | cons c t ih =>
    rw [List.cons_append, List.dropWhile_cons]
    by_cases hp : p c = true
    · rw [hp]
      obtain ⟨w', h1, h2⟩ := ih
      exact ⟨w', by simpa using h1, fun x hx => List.mem_cons_of_mem _ (h2 x hx)⟩
    · rw [Bool.not_eq_true] at hp
      rw [hp]
      exact ⟨c :: t, rfl, fun x hx => hx⟩

theorem eatDot_shape {w v : List Char} (hv : ∀ c t, v = c :: t → c ≠ '.') :
    ∃ w', (eatDot (w ++ v)).2 = w' ++ v ∧ ∀ c ∈ w', c ∈ w := by
  cases w with
  | nil =>
    refine ⟨[], ?_, by simp⟩
    cases v with
    | nil => rfl
    | cons c t =>
      simp only [List.nil_append]
      unfold eatDot
      split
      case _ rest heq => exact absurd (List.cons.inj heq).1 (hv c t rfl)
      case _ => rfl
  | cons c t =>
    rw [List.cons_append]
    unfold eatDot
    split
    case _ rest heq =>
      obtain ⟨hc, ht⟩ := List.cons.inj heq
      exact ⟨t, by rw [ht], fun x hx => List.mem_cons_of_mem _ hx⟩
    case _ => exact ⟨c :: t, rfl, fun x hx => hx⟩

theorem eatStar_shape {w v : List Char} (hv : ∀ c t, v = c :: t → c ≠ '*') :
    ∃ w', eatStar (w ++ v) = w' ++ v ∧ ∀ c ∈ w', c ∈ w := by
  cases w with
  | nil =>
    refine ⟨[], ?_, by simp⟩
    cases v with
    | nil => rfl
    | cons c t =>
      simp only [List.nil_append]
      unfold eatStar
      split
      case _ rest heq => exact absurd (List.cons.inj heq).1 (hv c t rfl)
      case _ => rfl
  | cons c t =>
    rw [List.cons_append]
    unfold eatStar
    split
    case _ rest heq =>
      obtain ⟨hc, ht⟩ := List.cons.inj heq
      exact ⟨t, by rw [ht], fun x hx => List.mem_cons_of_mem _ hx⟩
    case _ => exact ⟨c :: t, rfl, fun x hx => hx⟩

theorem matchTermFrom_none_of_numeric {w v : List Char} (hw : w ≠ [])
    (hchars : ∀ c ∈ w, numericChar c) (hv : blockHead v) :
    matchTermFrom (w ++ v) = none := by
  obtain ⟨w1, h1, m1⟩ := @eatSign_shape w v hw
  obtain ⟨w2, h2, m2⟩ := @dropWhile_shape Char.isDigit w1 v
    (fun c t hct => ((hv c t hct).1))
  obtain ⟨w3, h3, m3⟩ := @eatDot_shape w2 v
    (fun c t hct => ((hv c t hct).2.1))
  obtain ⟨w4, h4, m4⟩ := @dropWhile_shape Char.isDigit w3 v
    (fun c t hct => ((hv c t hct).1))
  obtain ⟨w5, h5, m5⟩ := @eatStar_shape w4 v
    (fun c t hct => ((hv c t hct).2.2.1))
  have hchain : eatStar ((eatDot ((eatSign (w ++ v)).2.dropWhile
      Char.isDigit)).2.dropWhile Char.isDigit) = w5 ++ v := by
    rw [h1, h2, h3, h4, h5]
  have hmem : ∀ c ∈ w5, numericChar c := fun c hc =>
    hchars c (m1 _ (m2 _ (m3 _ (m4 _ (m5 _ hc)))))
  unfold matchTermFrom
  dsimp only
  split
  case _ x l6 heq =>
    exfalso
    rw [hchain] at heq
    cases w5 with
    | nil =>
      cases v with
      | nil => simp at heq
      | cons c t =>
        simp only [List.nil_append] at heq
        exact (hv c t rfl).2.2.2 (List.cons.inj heq).1
    | cons c t =>
      rw [List.cons_append] at heq
      have hc := (List.cons.inj heq).1
      rcases hmem c (List.mem_cons_self _ _) with hd | hd | hd | hd
      all_goals (rw [hc] at hd; exact absurd hd (by decide))
  case _ => rfl

theorem eatConstNum_eq_no_dot {l : List Char}
    (h : ∀ c t, l.dropWhile Char.isDigit = c :: t → c ≠ '.') :
    eatConstNum l =
      if (l.takeWhile Char.isDigit).isEmpty then none
      else some (l.takeWhile Char.isDigit, l.dropWhile Char.isDigit) := by
  unfold eatConstNum
  dsimp only
  split
  case _ r heq => exact absurd rfl (h '.' r heq)
  case _ => rfl

theorem eatConstNum_eq_dot {l r : List Char}
    (h : l.dropWhile Char.isDigit = '.' :: r) :
    eatConstNum l =
      if (r.takeWhile Char.isDigit).isEmpty then none
      else some (l.takeWhile Char.isDigit ++ '.' :: r.takeWhile Char.isDigit,
                 r.dropWhile Char.isDigit) := by
  unfold eatConstNum
  dsimp only
  rw [h]
  rfl

theorem eatConstNum_shape {w v : List Char}
    (hv : ∀ c t, v = c :: t → c.isDigit = false ∧ c ≠ '.') :
    eatConstNum (w ++ v) = none ∨
    ∃ n w', eatConstNum (w ++ v) = some (n, w' ++ v) ∧ ∀ c ∈ w', c ∈ w := by
  obtain ⟨w1, h1, m1⟩ := @dropWhile_shape Char.isDigit w v
    (fun c t hct => ((hv c t hct).1))
  cases w1 with
  | nil =>
    have h1' : (w ++ v).dropWhile Char.isDigit = v := by simpa using h1
    have hnd : ∀ c t, (w ++ v).dropWhile Char.isDigit = c :: t → c ≠ '.' := by
      intro c t hct
      rw [h1'] at hct
      exact (hv c t hct).2
    rw [eatConstNum_eq_no_dot hnd]
    split
    · exact Or.inl rfl
    · exact Or.inr ⟨(w ++ v).takeWhile Char.isDigit, [], by rw [h1']; rfl, by simp⟩
  | cons c t =>
    rw [List.cons_append] at h1
    by_cases hc : c = '.'
    · subst hc
      obtain ⟨w2, h2, m2⟩ := @dropWhile_shape Char.isDigit t v
        (fun c t hct => ((hv c t hct).1))
      rw [eatConstNum_eq_dot h1]
      split
      · exact Or.inl rfl
      · refine Or.inr ⟨(w ++ v).takeWhile Char.isDigit ++
            '.' :: (t ++ v).takeWhile Char.isDigit, w2, ?_,
          fun x hx => m1 _ (List.mem_cons_of_mem _ (m2 _ hx))⟩
        rw [h2]
    · have hnd : ∀ c' t', (w ++ v).dropWhile Char.isDigit = c' :: t' →
          c' ≠ '.' := by
        intro c' t' hct
        rw [h1] at hct
        rw [← (List.cons.inj hct).1]
        exact hc
      rw [eatConstNum_eq_no_dot hnd]
      split
      · exact Or.inl rfl
      · exact Or.inr ⟨(w ++ v).takeWhile Char.isDigit, c :: t, by rw [h1]; rfl,
          fun x hx => m1 _ hx⟩

theorem matchConstFrom_none_of_numeric {w v : List Char} (hw : w ≠ [])
    (hchars : ∀ c ∈ w, numericChar c) (hv : blockHead v) :
    matchConstFrom (w ++ v) = none := by
  obtain ⟨w1, h1, m1⟩ := @eatSign_shape w v hw
  unfold matchConstFrom
  dsimp only
  rw [h1]
  rcases @eatConstNum_shape w1 v
      (fun c t hct => ⟨(hv c t hct).1, (hv c t hct).2.1⟩) with
    hnone | ⟨n, w2, hsome, m2⟩
  · simp only [hnone]
  · simp only [hsome]
    obtain ⟨w3, h3, m3⟩ := @eatStar_shape w2 v
      (fun c t hct => ((hv c t hct).2.2.1))
    rw [h3]
    split
    case _ l5 heq =>
      exfalso
      cases w3 with
      | nil =>
        cases v with
        | nil => simp at heq
        | cons c t =>
          simp only [List.nil_append] at heq
          exact (hv c t rfl).2.2.2 (List.cons.inj heq).1
      | cons c t =>
        rw [List.cons_append] at heq
        have hc := (List.cons.inj heq).1
        rcases hchars c (m1 _ (m2 _ (m3 _ (List.mem_cons_self _ _)))) with
          hd | hd | hd | hd
        all_goals (rw [hc] at hd; exact absurd hd (by decide))
    case _ => rfl

theorem eatSign_not_sign {c : Char} {l : List Char} (h1 : c ≠ '+') (h2 : c ≠ '-') :
    eatSign (c :: l) = (none, c :: l) := by
  rw [eatSign_cons, if_neg (by simp [h1, h2])]

theorem eatSign_plus (l : List Char) : eatSign ('+' :: l) = (some '+', l) := rfl

theorem eatSign_minus (l : List Char) : eatSign ('-' :: l) = (some '-', l) := rfl

theorem eatStar_cons_star (l : List Char) : eatStar ('*' :: l) = l := rfl

theorem eatStar_cons_ne {c : Char} (l : List Char) (h : c ≠ '*') :
    eatStar (c :: l) = c :: l := by
  unfold eatStar
  split
  case _ rest heq => exact absurd (List.cons.inj heq).1 h
  case _ => rfl

theorem eatDot_cons_ne {c : Char} (l : List Char) (h : c ≠ '.') :
    eatDot (c :: l) = (false, c :: l) := by
  unfold eatDot
  split
  case _ rest heq => exact absurd (List.cons.inj heq).1 h
  case _ => rfl

theorem matchConstFrom_of_eatConstNum_none {l : List Char}
    (h : eatConstNum (eatSign l).2 = none) : matchConstFrom l = none := by
  unfold matchConstFrom
  dsimp only
  simp only [h]

/-- The constant matcher fails outright at a position whose character can
open neither a sign nor a number. -/
theorem matchConstFrom_none_head {c : Char} {t : List Char}
    (h1 : c.isDigit = false) (h2 : c ≠ '.') (h3 : c ≠ '+') (h4 : c ≠ '-') :
    matchConstFrom (c :: t) = none := by
  apply matchConstFrom_of_eatConstNum_none
  rw [eatSign_not_sign h3 h4]
  have hd : (c :: t).dropWhile Char.isDigit = c :: t := by
    simp [List.dropWhile_cons, h1]
  have hnd : ∀ c' t', (c :: t).dropWhile Char.isDigit = c' :: t' → c' ≠ '.' := by
    intro c' t' hct
    rw [hd] at hct
    rw [← (List.cons.inj hct).1]
    exact h2
  rw [eatConstNum_eq_no_dot hnd]
  simp [List.takeWhile_cons, h1]

/-- Both all-`p` and blocked-head stages of a `takeWhile`/`dropWhile` pair
distribute over an append. -/
theorem takeWhile_dropWhile_append {p : Char → Bool} {a b : List Char}
    (ha : ∀ c ∈ a, p c = true)
    (hb : ∀ c t, b = c :: t → p c = false) :
    (a ++ b).takeWhile p = a ∧ (a ++ b).dropWhile p = b := by
  induction a with
  | nil =>
    simp only [List.nil_append]
    cases b with
    | nil => exact ⟨rfl, rfl⟩
    | cons c t =>
      constructor
      · simp [List.takeWhile_cons, hb c t rfl]
      · simp [List.dropWhile_cons, hb c t rfl]
  | cons c t ih =>
    have hc := ha c (List.mem_cons_self _ _)
    obtain ⟨ih1, ih2⟩ := ih (fun x hx => ha x (List.mem_cons_of_mem _ hx))
    constructor
    · rw [List.cons_append, List.takeWhile_cons, hc]
      simp [ih1]
    · rw [List.cons_append, List.dropWhile_cons, hc]
      simpa using ih2

/-- The term matcher consumes a full `sign? digits * X ^ digits` chunk. -/
theorem matchTermFrom_nodot {so : Option Char} {sgn d1 ds rest : List Char}
    (hsgn : eatSign (sgn ++ (d1 ++ '*' :: 'X' :: '^' :: (ds ++ rest))) =
            (so, d1 ++ '*' :: 'X' :: '^' :: (ds ++ rest)))
    (hd1 : ∀ c ∈ d1, c.isDigit = true)
    (hds : ds ≠ [] ∧ ∀ c ∈ ds, c.isDigit = true)
    (hrest : ∀ c t, rest = c :: t → c.isDigit = false) :
    matchTermFrom (sgn ++ (d1 ++ '*' :: 'X' :: '^' :: (ds ++ rest))) =
      some (⟨so, d1, ds⟩, rest) := by
  have hstar : ∀ c t, ('*' :: 'X' :: '^' :: (ds ++ rest) : List Char) = c :: t →
      Char.isDigit c = false := by
    intro c t h
    rw [← (List.cons.inj h).1]
    rfl
  have h1 := takeWhile_dropWhile_append hd1 hstar
  have h2 := takeWhile_dropWhile_append hds.2 hrest
  have hne : ds.isEmpty = false := by
    cases ds with
    | nil => exact absurd rfl hds.1
    | cons c t => rfl
  unfold matchTermFrom
  simp [hsgn, h1.1, h1.2, h2.1, h2.2, eatDot, eatStar, hne]

/-- Same, for a decimal-point coefficient `sign? digits.digits * X ^ digits`. -/
theorem matchTermFrom_dot {so : Option Char} {sgn d1 d2 ds rest : List Char}
    (hsgn : eatSign (sgn ++ (d1 ++ '.' :: (d2 ++ '*' :: 'X' :: '^' :: (ds ++ rest)))) =
            (so, d1 ++ '.' :: (d2 ++ '*' :: 'X' :: '^' :: (ds ++ rest))))
    (hd1 : ∀ c ∈ d1, c.isDigit = true)
    (hd2 : ∀ c ∈ d2, c.isDigit = true)
    (hds : ds ≠ [] ∧ ∀ c ∈ ds, c.isDigit = true)
    (hrest : ∀ c t, rest = c :: t → c.isDigit = false) :
    matchTermFrom (sgn ++ (d1 ++ '.' :: (d2 ++ '*' :: 'X' :: '^' :: (ds ++ rest)))) =
      some (⟨so, d1 ++ '.' :: d2, ds⟩, rest) := by
  have hdot : ∀ c t, ('.' :: (d2 ++ '*' :: 'X' :: '^' :: (ds ++ rest)) : List Char) =
      c :: t → Char.isDigit c = false := by
    intro c t h
    rw [← (List.cons.inj h).1]
    rfl
  have hstar : ∀ c t, ('*' :: 'X' :: '^' :: (ds ++ rest) : List Char) = c :: t →
      Char.isDigit c = false := by
    intro c t h
    rw [← (List.cons.inj h).1]
    rfl
  have h1 := takeWhile_dropWhile_append hd1 hdot
  have h2 := takeWhile_dropWhile_append hd2 hstar
  have h3 := takeWhile_dropWhile_append hds.2 hrest
  have hne : ds.isEmpty = false := by
    cases ds with
    | nil => exact absurd rfl hds.1
    | cons c t => rfl
  unfold matchTermFrom
  simp [hsgn, h1.1, h1.2, h2.1, h2.2, h3.1, h3.2, eatDot, eatStar, hne]

/-- The constant matcher rejects a number followed by `*X^` and a non-zero
exponent digit. -/
theorem matchConstFrom_none_expMismatch {w rest : List Char} {d : Char}
    (hw : w ≠ []) (hchars : ∀ c ∈ w, numericChar c) (hd : d ≠ '0') :
    matchConstFrom (w ++ '*' :: 'X' :: '^' :: d :: rest) = none := by
  obtain ⟨w1, h1, m1⟩ := @eatSign_shape w ('*' :: 'X' :: '^' :: d :: rest) hw
  unfold matchConstFrom
  dsimp only
  rw [h1]
  have hv : ∀ c t, ('*' :: 'X' :: '^' :: d :: rest : List Char) = c :: t →
      c.isDigit = false ∧ c ≠ '.' := by
    intro c t h
    rw [← (List.cons.inj h).1]
    exact ⟨rfl, by decide⟩
  rcases @eatConstNum_shape w1 _ hv with hnone | ⟨n, w2, hsome, m2⟩
  · simp only [hnone]
  · cases w2 with
    | nil =>
      simp only [hsome, List.nil_append, eatStar_cons_star]
      split <;> simp_all
    | cons c t =>
      simp only [hsome]
      have hcnum : numericChar c := hchars c (m1 _ (m2 _ (List.mem_cons_self _ _)))
      have hcstar : c ≠ '*' := by
        rcases hcnum with h | h | h | h
        all_goals (intro he; rw [he] at h; exact absurd h (by decide))
      rw [List.cons_append, eatStar_cons_ne _ hcstar]
      split
      case _ l5 heq =>
        exfalso
        have hcx := (List.cons.inj heq).1
        rcases hcnum with h | h | h | h
        all_goals (rw [hcx] at h; exact absurd h (by decide))
      case _ => rfl

/-- The constant matcher accepts the (whitespace-stripped) synthetic
constant `+1*X^0`. -/
theorem matchConstFrom_synth (rest : List Char) :
    matchConstFrom ('+' :: '1' :: '*' :: 'X' :: '^' :: '0' :: rest) =
      some (1, rest) := by
  have h1 : parseFloatQ ['1'] = 1 := by
    simp [parseFloatQ, digitsToNat, List.takeWhile, List.dropWhile]
  have hdrop : ('1' :: '*' :: 'X' :: '^' :: '0' :: rest : List Char).dropWhile
      Char.isDigit = '*' :: 'X' :: '^' :: '0' :: rest := by simp
  have htake : ('1' :: '*' :: 'X' :: '^' :: '0' :: rest : List Char).takeWhile
      Char.isDigit = ['1'] := by simp
  have hnd : ∀ c t, ('1' :: '*' :: 'X' :: '^' :: '0' :: rest : List Char).dropWhile
      Char.isDigit = c :: t → c ≠ '.' := by
    intro c t h
    rw [hdrop] at h
    rw [← (List.cons.inj h).1]
    decide
  have hnum : eatConstNum ('1' :: '*' :: 'X' :: '^' :: '0' :: rest) =
      some (['1'], '*' :: 'X' :: '^' :: '0' :: rest) := by
    rw [eatConstNum_eq_no_dot hnd, htake, hdrop]
    rfl
  unfold matchConstFrom
  simp [eatSign_plus, hnum, eatStar_cons_star, h1]

theorem scanTermsGo_fuel {f1 f2 l : List Char} (hf1 : l.length ≤ f1.length)
    (hf2 : l.length ≤ f2.length) : scanTermsGo f1 l = scanTermsGo f2 l := by
  induction f1 generalizing f2 l with
  | nil =>
    have hl : l = [] := List.eq_nil_of_length_eq_zero (Nat.le_zero.mp hf1)
    subst hl
    cases f2 <;> rfl
  | cons a f1 ih =>
    cases l with
    | nil => cases f2 <;> rfl
    | cons c rest =>
      cases f2 with
      | nil => simp at hf2
      | cons b f2 =>
        simp only [List.length_cons] at hf1 hf2
        cases hm : matchTermFrom (c :: rest) with
        | none =>
          simp only [scanTermsGo, hm]
          exact ih (by omega) (by omega)
        | some pr =>
          obtain ⟨t, r⟩ := pr
          have hr := matchTermFrom_length hm
          simp only [List.length_cons] at hr
          simp only [scanTermsGo, hm]
          congr 1
          exact ih (by omega) (by omega)

theorem scanTerms_cons_some {c : Char} {rest r : List Char} {t : RawTerm}
    (h : matchTermFrom (c :: rest) = some (t, r)) :
    scanTerms (c :: rest) = t :: scanTerms r := by
  have hr := matchTermFrom_length h
  simp only [List.length_cons] at hr
  unfold scanTerms
  simp only [scanTermsGo, h]
  congr 1
  exact scanTermsGo_fuel (by omega) le_rfl

theorem scanTerms_cons_none {c : Char} {rest : List Char}
    (h : matchTermFrom (c :: rest) = none) :
    scanTerms (c :: rest) = scanTerms rest := by
  unfold scanTerms
  simp only [scanTermsGo, h]

theorem extractConstantGo_fuel {f1 f2 l : List Char} (hf1 : l.length ≤ f1.length)
    (hf2 : l.length ≤ f2.length) :
    extractConstantGo f1 l = extractConstantGo f2 l := by
  induction f1 generalizing f2 l with
  | nil =>
    have hl : l = [] := List.eq_nil_of_length_eq_zero (Nat.le_zero.mp hf1)
    subst hl
    cases f2 <;> rfl
  | cons a f1 ih =>
    cases l with
    | nil => cases f2 <;> rfl
    | cons c rest =>
      cases f2 with
      | nil => simp at hf2
      | cons b f2 =>
        simp only [List.length_cons] at hf1 hf2
        cases hm : matchConstFrom (c :: rest) with
        | none =>
          simp only [extractConstantGo, hm]
          exact ih (by omega) (by omega)
        | some pr =>
          obtain ⟨v, r⟩ := pr
          have hr := matchConstFrom_length hm
          simp only [List.length_cons] at hr
          simp only [extractConstantGo, hm]
          congr 1
          exact ih (by omega) (by omega)

theorem extractConstant_cons_some {c : Char} {rest r : List Char} {v : ℚ}
    (h : matchConstFrom (c :: rest) = some (v, r)) :
    extractConstant (c :: rest) = v + extractConstant r := by
  have hr := matchConstFrom_length h
  simp only [List.length_cons] at hr
  unfold extractConstant
  simp only [extractConstantGo, h]
  congr 1
  exact extractConstantGo_fuel (by omega) le_rfl

theorem extractConstant_cons_none {c : Char} {rest : List Char}
    (h : matchConstFrom (c :: rest) = none) :
    extractConstant (c :: rest) = extractConstant rest := by
  unfold extractConstant
  simp only [extractConstantGo, h]

theorem scanTerms_skip_of_all_none {w v : List Char}
    (h : ∀ w1, w1 ≠ [] → w1 <:+ w → matchTermFrom (w1 ++ v) = none) :
    scanTerms (w ++ v) = scanTerms v := by
  induction w with
  | nil => rfl
  | cons c t ih =>
    rw [List.cons_append]
    have hnone : matchTermFrom (c :: (t ++ v)) = none := by
      have hh := h (c :: t) (by simp) (List.suffix_refl _)
      simpa [List.cons_append] using hh
    rw [scanTerms_cons_none hnone]
    exact ih (fun w1 hne hsuf => h w1 hne (hsuf.trans (List.suffix_cons _ _)))

theorem extractConstant_skip_of_all_none {w v : List Char}
    (h : ∀ w1, w1 ≠ [] → w1 <:+ w → matchConstFrom (w1 ++ v) = none) :
    extractConstant (w ++ v) = extractConstant v := by
  induction w with
  | nil => rfl
  | cons c t ih =>
    rw [List.cons_append]
    have hnone : matchConstFrom (c :: (t ++ v)) = none := by
      have hh := h (c :: t) (by simp) (List.suffix_refl _)
      simpa [List.cons_append] using hh
    rw [extractConstant_cons_none hnone]
    exact ih (fun w1 hne hsuf => h w1 hne (hsuf.trans (List.suffix_cons _ _)))

theorem suffix_append_cases {w1 a b : List Char} (h : w1 <:+ a ++ b) :
    w1 <:+ b ∨ ∃ a1, a1 <:+ a ∧ a1 ≠ [] ∧ w1 = a1 ++ b := by
  induction a with
  | nil => exact Or.inl (by simpa using h)
  | cons x a ih =>
    rcases h with ⟨pre, hpre⟩
    cases pre with
    | nil =>
      right
      exact ⟨x :: a, List.suffix_refl _, by simp, by simpa using hpre⟩
    | cons y p =>
      rw [List.cons_append] at hpre
      have hsub : w1 <:+ a ++ b := ⟨p, (List.cons.inj hpre).2⟩
      rcases ih hsub with h1 | ⟨a1, hs, hne, heqw⟩
      · exact Or.inl h1
      · exact Or.inr ⟨a1, hs.trans (List.suffix_cons _ _), hne, heqw⟩

/-- The term scanner skips over a pure number followed by a blocked head. -/
theorem scanTerms_skip_numeric {w v : List Char}
    (hchars : ∀ c ∈ w, numericChar c) (hv : blockHead v) :
    scanTerms (w ++ v) = scanTerms v :=
  scanTerms_skip_of_all_none (fun w1 hne hsuf =>
    matchTermFrom_none_of_numeric hne (fun c hc => hchars c (hsuf.subset hc)) hv)

/-- The constant scanner skips over a pure number followed by a blocked head. -/
theorem extractConstant_skip_numeric {w v : List Char}
    (hchars : ∀ c ∈ w, numericChar c) (hv : blockHead v) :
    extractConstant (w ++ v) = extractConstant v :=
  extractConstant_skip_of_all_none (fun w1 hne hsuf =>
    matchConstFrom_none_of_numeric hne (fun c hc => hchars c (hsuf.subset hc)) hv)

/-- The constant scanner skips over an entire non-constant printed term
`number*X^(d :: ds)` whose exponent does not start with `0`. -/
theorem extractConstant_skip_term {num ds rest : List Char} {d : Char}
    (hnum : ∀ c ∈ num, numericChar c) (hddig : d.isDigit = true) (hd : d ≠ '0')
    (hds : ∀ c ∈ ds, c.isDigit = true) (hrest : blockHead rest) :
    extractConstant ((num ++ '*' :: 'X' :: '^' :: d :: ds) ++ rest) =
      extractConstant rest := by
  apply extractConstant_skip_of_all_none
  intro w1 hne hsuf
  rcases suffix_append_cases hsuf with hb | ⟨a1, hs, hne1, heqw⟩
  · rcases List.suffix_cons_iff.mp hb with he1 | hb1
    · subst he1
      have hm : matchConstFrom ('*' :: (('X' :: '^' :: d :: ds) ++ rest)) = none :=
        matchConstFrom_none_head (by decide) (by decide) (by decide) (by decide)
      simpa using hm
    · rcases List.suffix_cons_iff.mp hb1 with he2 | hb2
      · subst he2
        have hm : matchConstFrom ('X' :: (('^' :: d :: ds) ++ rest)) = none :=
          matchConstFrom_none_head (by decide) (by decide) (by decide) (by decide)
        simpa using hm
      · rcases List.suffix_cons_iff.mp hb2 with he3 | hb3
        · subst he3
          have hm : matchConstFrom ('^' :: ((d :: ds) ++ rest)) = none :=
            matchConstFrom_none_head (by decide) (by decide) (by decide) (by decide)
          simpa using hm
        · have hchars1 : ∀ c ∈ w1, numericChar c := by
            intro c hc
            rcases List.mem_cons.mp (hb3.subset hc) with he | hmem
            · exact Or.inl (by rw [he]; exact hddig)
            · exact Or.inl (hds c hmem)
          exact matchConstFrom_none_of_numeric hne hchars1 hrest
  · subst heqw
    have hm : matchConstFrom (a1 ++ '*' :: 'X' :: '^' :: d :: (ds ++ rest)) = none :=
      @matchConstFrom_none_expMismatch a1 (ds ++ rest) d hne1
        (fun c hc => hnum c (hs.subset hc)) hd
    simpa [List.append_assoc] using hm

/-! #### Decimal string round-trips -/

theorem digitsToNat_snoc (l : List Char) (c : Char) :
    digitsToNat (l ++ [c]) = 10 * digitsToNat l + (c.toNat - '0'.toNat) := by
  unfold digitsToNat
  rw [List.foldl_append]
  simp

theorem natDigitChar_toNat {m : ℕ} (h : m < 10) :
    (natDigitChar m).toNat = '0'.toNat + m := by
  interval_cases m <;> decide

theorem digitsToNat_natStr (n : ℕ) : digitsToNat (natStr n) = n := by
  induction n using Nat.strong_induction_on with
  | _ n ih =>
    by_cases h : n < 10
    · rw [natStr, dif_pos h]
      have ht := natDigitChar_toNat h
      simp [digitsToNat, ht]
    · rw [natStr, dif_neg h]
      rw [digitsToNat_snoc, ih (n / 10) (Nat.div_lt_self (by omega) (by decide)),
          natDigitChar_toNat (Nat.mod_lt _ (by decide))]
      omega

theorem natStrPad_length (n k : ℕ) : (natStrPad n k).length = k := by
  induction k generalizing n with
  | zero => rfl
  | succ k ih => simp [natStrPad, ih]

theorem digitsToNat_natStrPad {n : ℕ} (k : ℕ) (h : n < 10 ^ k) :
    digitsToNat (natStrPad n k) = n := by
  induction k generalizing n with
  | zero =>
    have h0 : n = 0 := by simp only [pow_zero] at h; omega
    subst h0
    rfl
  | succ k ih =>
    have hlt : n / 10 < 10 ^ k := by
      rw [Nat.div_lt_iff_lt_mul (by norm_num)]
      calc n < 10 ^ (k + 1) := h
        _ = 10 ^ k * 10 := by ring
    show digitsToNat (natStrPad (n / 10) k ++ [natDigitChar (n % 10)]) = n
    rw [digitsToNat_snoc, ih hlt, natDigitChar_toNat (Nat.mod_lt _ (by decide))]
    omega

theorem dvd_ten_pow_self {d k : ℕ} (h : d ∣ 10 ^ k) : d ∣ 10 ^ d := by
  have h2 : d ∣ 2 ^ k * 5 ^ k := by
    have h10 : (10 : ℕ) ^ k = 2 ^ k * 5 ^ k := by rw [← Nat.mul_pow]
    rwa [h10] at h
  rcases Nat.dvd_mul.mp h2 with ⟨d1, d2, h1, h2', heq⟩
  rcases (Nat.dvd_prime_pow Nat.prime_two).mp h1 with ⟨a, ha, rfl⟩
  rcases (Nat.dvd_prime_pow Nat.prime_five).mp h2' with ⟨b, hb, rfl⟩
  subst heq
  have ha' : a ≤ 2 ^ a * 5 ^ b := by
    have h1a : a < 2 ^ a := Nat.lt_two_pow a
    have h2a : 2 ^ a ≤ 2 ^ a * 5 ^ b :=
      Nat.le_mul_of_pos_right _ (pow_pos (by norm_num) b)
    omega
  have hb' : b ≤ 2 ^ a * 5 ^ b := by
    have h1b : b < 5 ^ b :=
      lt_of_lt_of_le (Nat.lt_two_pow b) (Nat.pow_le_pow_left (by norm_num) b)
    have h2b : 5 ^ b ≤ 2 ^ a * 5 ^ b :=
      Nat.le_mul_of_pos_left _ (pow_pos (by norm_num) a)
    omega
  have h10 : (10 : ℕ) ^ (2 ^ a * 5 ^ b) = 2 ^ (2 ^ a * 5 ^ b) * 5 ^ (2 ^ a * 5 ^ b) := by
    rw [← Nat.mul_pow]
  rw [h10]
  exact mul_dvd_mul (pow_dvd_pow 2 ha') (pow_dvd_pow 5 hb')

theorem tenExp_dvd {d : ℕ} (h : ∃ k, d ∣ 10 ^ k) : d ∣ 10 ^ tenExp d := by
  obtain ⟨k, hk⟩ := h
  have hd : d ∣ 10 ^ d := dvd_ten_pow_self hk
  unfold tenExp
  cases hf : (List.range (d + 1)).find? (fun k => decide (d ∣ 10 ^ k)) with
  | none =>
    exfalso
    have hnone := List.find?_eq_none.mp hf d (List.mem_range.mpr (by omega))
    simp at hnone
    exact hnone hd
  | some j =>
    have hj := List.find?_some hf
    simp at hj
    exact hj

/-- A rational with a terminating decimal expansion: exactly the values the
parsed doubles of this model can take. -/
def IsDec (q : ℚ) : Prop := ∃ z : ℤ, ∃ k : ℕ, q = z / 10 ^ k

theorem IsDec.den_dvd {q : ℚ} (h : IsDec q) : ∃ k, q.den ∣ 10 ^ k := by
  obtain ⟨z, k, hz⟩ := h
  refine ⟨k, ?_⟩
  have hdvd := Rat.den_dvd z (10 ^ k)
  rw [Rat.divInt_eq_div] at hdvd
  push_cast at hdvd
  rw [← hz] at hdvd
  exact_mod_cast hdvd

theorem mul_pow_den_eq_one {q : ℚ} {k : ℕ} (h : q.den ∣ 10 ^ k) :
    (q * 10 ^ k).den = 1 := by
  have hden : (q.den : ℚ) ≠ 0 := by
    exact_mod_cast q.den_nz
  have hmul : (q.den : ℕ) * (10 ^ k / q.den) = 10 ^ k := Nat.mul_div_cancel' h
  have h10 : ((10 : ℚ)) ^ k = (q.den : ℚ) * ((10 ^ k / q.den : ℕ) : ℚ) := by
    have hc := congrArg (fun m : ℕ => (m : ℚ)) hmul
    push_cast at hc
    exact hc.symm
  have heq : q * 10 ^ k = ((q.num * ((10 ^ k / q.den : ℕ) : ℤ) : ℤ) : ℚ) := by
    conv_lhs => rw [← Rat.num_div_den q, h10]
    have hcancel : (q.num : ℚ) / (q.den : ℚ) *
        ((q.den : ℚ) * ((10 ^ k / q.den : ℕ) : ℚ)) =
        (q.num : ℚ) * ((10 ^ k / q.den : ℕ) : ℚ) := by
      field_simp
    rw [hcancel, Int.cast_mul, Int.cast_natCast]
  rw [heq, Rat.den_intCast]

theorem takeWhile_all {p : Char → Bool} {l : List Char}
    (h : ∀ c ∈ l, p c = true) :
    l.takeWhile p = l ∧ l.dropWhile p = [] := by
  induction l with
  | nil => exact ⟨rfl, rfl⟩
  | cons c t ih =>
    obtain ⟨ih1, ih2⟩ := ih (fun x hx => h x (List.mem_cons_of_mem _ hx))
    rw [List.takeWhile_cons, List.dropWhile_cons, h c (List.mem_cons_self _ _)]
    simp [ih1, ih2]

theorem parseFloatQ_natStr (m : ℕ) : parseFloatQ (natStr m) = m := by
  unfold parseFloatQ
  dsimp only
  obtain ⟨h1, h2⟩ := takeWhile_all (natStr_digits m)
  rw [h1, h2]
  show (digitsToNat (natStr m) : ℚ) = m
  rw [digitsToNat_natStr]

theorem parseFloatQ_dot (a b : List Char)
    (ha : ∀ c ∈ a, c.isDigit = true) (hb : ∀ c ∈ b, c.isDigit = true) :
    parseFloatQ (a ++ '.' :: b) =
      (digitsToNat a : ℚ) + (digitsToNat b : ℚ) / 10 ^ b.length := by
  unfold parseFloatQ
  dsimp only
  have hdot : ∀ c t, ('.' :: b : List Char) = c :: t → Char.isDigit c = false := by
    intro c t h
    rw [← (List.cons.inj h).1]
    rfl
  obtain ⟨h1, h2⟩ := takeWhile_dropWhile_append ha hdot
  rw [h1, h2]
  obtain ⟨h3, h4⟩ := takeWhile_all hb
  show (digitsToNat a : ℚ) + (digitsToNat (b.takeWhile Char.isDigit) : ℚ) /
      10 ^ (b.takeWhile Char.isDigit).length = _
  rw [h3]

theorem num_toNat_mul {q : ℚ} (hq : 0 ≤ q) (hdec : IsDec q) :
    (((q * 10 ^ tenExp q.den).num.toNat : ℕ) : ℚ) = q * 10 ^ tenExp q.den := by
  have hden : q.den ∣ 10 ^ tenExp q.den := tenExp_dvd hdec.den_dvd
  have h1 : (q * 10 ^ tenExp q.den).den = 1 := mul_pow_den_eq_one hden
  have h2 : q * 10 ^ tenExp q.den = (((q * 10 ^ tenExp q.den).num : ℤ) : ℚ) := by
    conv_lhs => rw [← Rat.num_div_den (q * 10 ^ tenExp q.den)]
    rw [h1]
    simp
  have hnn : 0 ≤ (q * 10 ^ tenExp q.den).num :=
    Rat.num_nonneg.mpr (by positivity)
  conv_rhs => rw [h2]
  exact_mod_cast Int.toNat_of_nonneg hnn

/-- The printed decimal of a non-negative terminating rational parses back
to the same value. -/
theorem parseFloatQ_ratToStr {q : ℚ} (hq : 0 ≤ q) (hdec : IsDec q) :
    parseFloatQ (ratToStr q) = q := by
  have hkey := num_toNat_mul hq hdec
  unfold ratToStr
  dsimp only
  by_cases hk : tenExp q.den = 0
  · rw [if_pos hk, parseFloatQ_natStr]
    rw [hk] at hkey ⊢
    norm_num at hkey ⊢
    exact hkey
  · rw [if_neg hk]
    rw [parseFloatQ_dot _ _ (natStr_digits _) (natStrPad_digits _ _)]
    rw [natStrPad_length, digitsToNat_natStr,
        digitsToNat_natStrPad _ (Nat.mod_lt _ (by positivity))]
    have hP : ((10 : ℚ)) ^ tenExp q.den ≠ 0 := by positivity
    revert hkey hP
    generalize tenExp q.den = k
    intro hkey hP
    revert hkey
    generalize (q * 10 ^ k).num.toNat = n
    intro hkey
    have hq2 : q = (n : ℚ) / 10 ^ k := by
      rw [hkey]
      field_simp
    rw [hq2, eq_div_iff hP, add_mul, div_mul_cancel₀ _ hP]
    calc ((n / 10 ^ k : ℕ) : ℚ) * 10 ^ k + ((n % 10 ^ k : ℕ) : ℚ)
        = (((n / 10 ^ k) * 10 ^ k + n % 10 ^ k : ℕ) : ℚ) := by push_cast; ring
      _ = (n : ℚ) := by rw [Nat.div_add_mod']

theorem IsDec.natCast (n : ℕ) : IsDec (n : ℚ) := ⟨n, 0, by norm_num⟩

theorem IsDec.zero : IsDec 0 := ⟨0, 0, by norm_num⟩

theorem IsDec.one : IsDec 1 := ⟨1, 0, by norm_num⟩

theorem IsDec.neg {q : ℚ} (h : IsDec q) : IsDec (-q) := by
  obtain ⟨z, k, rfl⟩ := h
  exact ⟨-z, k, by push_cast; ring⟩

theorem IsDec.add {a b : ℚ} (ha : IsDec a) (hb : IsDec b) : IsDec (a + b) := by
  obtain ⟨z1, k1, rfl⟩ := ha
  obtain ⟨z2, k2, rfl⟩ := hb
  refine ⟨z1 * 10 ^ k2 + z2 * 10 ^ k1, k1 + k2, ?_⟩
  have h1 : ((10 : ℚ)) ^ k1 ≠ 0 := by positivity
  have h2 : ((10 : ℚ)) ^ k2 ≠ 0 := by positivity
  push_cast
  rw [div_add_div _ _ h1 h2, pow_add]
  ring_nf

theorem IsDec.sub {a b : ℚ} (ha : IsDec a) (hb : IsDec b) : IsDec (a - b) := by
  rw [sub_eq_add_neg]
  exact ha.add hb.neg

theorem IsDec.abs {q : ℚ} (h : IsDec q) : IsDec |q| := by
  rcases abs_choice q with h1 | h1 <;> rw [h1]
  exacts [h, h.neg]

theorem IsDec.parseFloat (l : List Char) : IsDec (parseFloatQ l) := by
  unfold parseFloatQ
  dsimp only
  split
  case _ fr heq =>
    refine (IsDec.natCast _).add
      ⟨(digitsToNat (fr.takeWhile Char.isDigit) : ℤ),
       (fr.takeWhile Char.isDigit).length, ?_⟩
    push_cast
    ring
  case _ => exact IsDec.natCast _

theorem IsDec.termVal (t : RawTerm) : IsDec (termValue t) := by
  unfold termValue
  dsimp only
  have hcoeff : IsDec (if t.coeff = [] ∧ t.sign = some '-' then (-1 : ℚ)
      else if t.coeff = [] ∧ t.sign = some '+' then 1
      else if t.coeff = [] then 1 else parseFloatQ t.coeff) := by
    split_ifs
    · exact IsDec.one.neg
    · exact IsDec.one
    · exact IsDec.one
    · exact IsDec.parseFloat _
  by_cases hs : t.sign = some '-'
  · rw [if_pos hs, neg_one_mul]
    exact hcoeff.neg
  · rw [if_neg hs, one_mul]
    exact hcoeff

theorem matchConstFrom_isDec {l r : List Char} {v : ℚ}
    (h : matchConstFrom l = some (v, r)) : IsDec v := by
  unfold matchConstFrom at h
  dsimp only at h
  split at h
  · exact absurd h (by simp)
  case _ numcs l3 hnum =>
    split at h
    case _ l5 heq =>
      injection h with h1
      have hv : (if (eatSign l).1 = some '-' then (-1 : ℚ) else 1) *
          parseFloatQ numcs = v := congrArg Prod.fst h1
      rw [← hv]
      split_ifs
      · rw [neg_one_mul]
        exact (IsDec.parseFloat _).neg
      · rw [one_mul]
        exact IsDec.parseFloat _
    · exact absurd h (by simp)

theorem extractConstantGo_isDec (fuel l : List Char) :
    IsDec (extractConstantGo fuel l) := by
  induction fuel generalizing l with
  | nil => exact IsDec.zero
  | cons a fuel ih =>
    cases l with
    | nil => exact IsDec.zero
    | cons c rest =>
      cases hm : matchConstFrom (c :: rest) with
      | none =>
        simp only [extractConstantGo, hm]
        exact ih rest
      | some pr =>
        obtain ⟨v, r⟩ := pr
        simp only [extractConstantGo, hm]
        exact (matchConstFrom_isDec hm).add (ih r)

theorem extractConstant_isDec (l : List Char) : IsDec (extractConstant l) :=
  extractConstantGo_isDec l l

theorem lookupC_mem {m : CoeffMap} {x : ℕ} {v : ℚ}
    (h : lookupC m x = some v) : (x, v) ∈ m := by
  induction m with
  | nil => exact absurd h (by simp [lookupC])
  | cons p t ih =>
    obtain ⟨e, w⟩ := p
    unfold lookupC at h
    split_ifs at h with he
    · subst he
      rw [Option.some.inj h]
      exact List.mem_cons_self _ _
    · exact List.mem_cons_of_mem _ (ih h)

/-- All values of a mapping are terminating decimals. -/
def mapIsDec (m : CoeffMap) : Prop := ∀ p ∈ m, IsDec p.2

theorem mapIsDec_getD {m : CoeffMap} (hm : mapIsDec m) (e : ℕ) :
    IsDec (getD m e) := by
  unfold getD
  cases hl : lookupC m e with
  | none => exact IsDec.zero
  | some v => exact hm _ (lookupC_mem hl)

theorem mapIsDec_addTerm {m : CoeffMap} {e : ℕ} {v : ℚ}
    (hm : mapIsDec m) (hv : IsDec v) : mapIsDec (addTerm m e v) := by
  induction m with
  | nil =>
    intro p hp
    rcases List.mem_singleton.mp hp with rfl
    exact hv
  | cons q t ih =>
    obtain ⟨e', v'⟩ := q
    unfold addTerm
    split_ifs with he
    · intro p hp
      rcases List.mem_cons.mp hp with rfl | hp2
      · exact ((hm _ (List.mem_cons_self _ _)).add hv : IsDec (v' + v))
      · exact hm _ (List.mem_cons_of_mem _ hp2)
    · intro p hp
      rcases List.mem_cons.mp hp with rfl | hp2
      · exact hm _ (List.mem_cons_self _ _)
      · exact ih (fun x hx => hm _ (List.mem_cons_of_mem _ hx)) _ hp2

theorem extractTerms_isDec (side : List Char) : mapIsDec (extractTerms side) := by
  unfold extractTerms
  generalize scanTerms side = raws
  have hgen : ∀ (acc : CoeffMap), mapIsDec acc → mapIsDec (raws.foldl
      (fun m t => addTerm m (digitsToNat t.expDigits) (termValue t)) acc) := by
    induction raws with
    | nil => exact fun acc h => h
    | cons t rest ih =>
      intro acc hacc
      simp only [List.foldl_cons]
      exact ih _ (mapIsDec_addTerm hacc (IsDec.termVal t))
  exact hgen [] (fun p hp => absurd hp (by simp))

theorem parseEquation_ok_inv {s : String} {m : CoeffMap}
    (h : parseEquation s = Except.ok m) :
    ∃ lhs rhs ps, splitEq (stripWS s.data) = lhs :: rhs :: ps ∧
      lhs.isEmpty = false ∧
      m = combineSides (extractTerms lhs) (extractTerms rhs)
            (extractConstant lhs) (extractConstant rhs) := by
  unfold parseEquation at h
  dsimp only at h
  split at h
  case _ lhs rhs ps hsplit =>
    by_cases hemp : lhs.isEmpty = true
    · rw [if_pos hemp] at h
      exact absurd h (by simp)
    · rw [if_neg hemp] at h
      refine ⟨lhs, rhs, ps, hsplit, ?_, ?_⟩
      · simpa using hemp
      · exact (Except.ok.inj h).symm
  case _ => exact absurd h (by simp)

theorem parseEquation_isDec {s : String} {m : CoeffMap}
    (h : parseEquation s = Except.ok m) (e : ℕ) : IsDec (getD m e) := by
  obtain ⟨lhs, rhs, ps, hsplit, hne, rfl⟩ := parseEquation_ok_inv h
  by_cases he : e = 0
  · subst he
    unfold getD
    rw [(combineSides_spec _ _ _ _).2]
    exact (extractConstant_isDec lhs).sub (extractConstant_isDec rhs)
  · unfold getD
    rw [(combineSides_spec _ _ _ _).1 e he]
    split_ifs
    · exact (mapIsDec_getD (extractTerms_isDec lhs) e).sub
        (mapIsDec_getD (extractTerms_isDec rhs) e)
    · exact IsDec.zero

theorem jsIsSpace_digit {c : Char} (h : c.isDigit = true) :
    jsIsSpace c = false := by
  by_contra hsp
  rw [Bool.not_eq_false] at hsp
  unfold jsIsSpace at hsp
  simp only [Bool.or_eq_true, decide_eq_true_eq] at hsp
  have hc : c = ' ' ∨ c = '\t' ∨ c = '\n' ∨ c = '\x0d' ∨ c = '\x0b' ∨
      c = '\x0c' ∨ c = '\u00A0' := by tauto
  rcases hc with h1 | h1 | h1 | h1 | h1 | h1 | h1 <;>
    (subst h1; exact absurd h (by decide))

theorem stripWS_digits {l : List Char} (h : ∀ c ∈ l, c.isDigit = true) :
    stripWS l = l :=
  List.filter_eq_self.mpr fun c hc => by rw [jsIsSpace_digit (h c hc)]; rfl

theorem stripWS_ratToStr (q : ℚ) : stripWS (ratToStr q) = ratToStr q := by
  apply List.filter_eq_self.mpr
  intro c hc
  rcases ratToStr_chars q c hc with hd | hd
  · rw [jsIsSpace_digit hd]
    rfl
  · subst hd
    decide

/-- Whitespace-stripping a printed term yields the sign mark, the decimal of
the absolute coefficient, and (for non-zero exponents) `*X^` and the
exponent digits. -/
theorem stripWS_termChunk (first : Bool) (e : ℕ) (v : ℚ) :
    stripWS (termChunk first e v) =
      (if first then (if 0 ≤ v then [] else ['-'])
       else (if 0 ≤ v then ['+'] else ['-'])) ++
      ratToStr |v| ++
      (if e ≠ 0 then '*' :: 'X' :: '^' :: natStr e else []) := by
  unfold termChunk
  show stripWS _ = _
  unfold stripWS
  rw [List.filter_append, List.filter_append]
  congr 1
  congr 1
  · split_ifs <;> decide
  · exact stripWS_ratToStr |v|
  · split_ifs with he
    · rw [show ([' ', '*', ' ', 'X', '^'] ++ natStr e : List Char) =
          [' ', '*', ' ', 'X', '^'] ++ natStr e from rfl, List.filter_append]
      rw [show List.filter (fun c => !jsIsSpace c) [' ', '*', ' ', 'X', '^'] =
          ['*', 'X', '^'] from by decide]
      rw [show List.filter (fun c => !jsIsSpace c) (natStr e) = natStr e from
        stripWS_digits (natStr_digits e)]
      rfl
    · rfl

/-- The non-first printed chunks of the body, whitespace included. -/
def restChunks (m : CoeffMap) : List ℕ → List Char
  | [] => []
  | e :: rest =>
    (if getD m e = 0 then [] else termChunk false e (getD m e)) ++
      restChunks m rest

theorem bodyFold_from_ne_nil (m : CoeffMap) (exps : List ℕ) (acc : List Char)
    (hacc : acc ≠ []) :
    exps.foldl (fun acc e =>
      let v := getD m e
      if v = 0 then acc else acc ++ termChunk acc.isEmpty e v) acc =
      acc ++ restChunks m exps := by
  induction exps generalizing acc with
  | nil => simp [restChunks]
  | cons e rest ih =>
    simp only [List.foldl_cons, restChunks]
    by_cases hv : getD m e = 0
    · rw [if_pos hv, if_pos hv, List.nil_append]
      exact ih acc hacc
    · rw [if_neg hv, if_neg hv, List.isEmpty_eq_false.mpr hacc,
        ← List.append_assoc]
      exact ih _ (fun hh => hacc (List.append_eq_nil.mp hh).1)

theorem bodyAcc_decomp (m : CoeffMap) (pre post : List ℕ) (e0 : ℕ)
    (hpre : ∀ e ∈ pre, getD m e = 0) (h0 : getD m e0 ≠ 0) :
    bodyAcc m (pre ++ e0 :: post) =
      termChunk true e0 (getD m e0) ++ restChunks m post := by
  unfold bodyAcc
  rw [List.foldl_append, bodyFold_all_zero m pre [] hpre]
  simp only [List.foldl_cons, if_neg h0, List.isEmpty_nil, List.nil_append]
  exact bodyFold_from_ne_nil m post _ (termChunk_ne_nil _ _ _)

theorem exists_first_nonzero (m : CoeffMap) (exps : List ℕ)
    (h : ∃ e ∈ exps, getD m e ≠ 0) :
    ∃ pre e0 post, exps = pre ++ e0 :: post ∧
      (∀ e ∈ pre, getD m e = 0) ∧ getD m e0 ≠ 0 := by
  induction exps with
  | nil => simp at h
  | cons e rest ih =>
    by_cases hv : getD m e = 0
    · have hrest : ∃ e ∈ rest, getD m e ≠ 0 := by
        rcases h with ⟨e', he', hne⟩
        rcases List.mem_cons.mp he' with rfl | hmem
        · exact absurd hv hne
        · exact ⟨e', hmem, hne⟩
      obtain ⟨pre, e0, post, heq, hpre, h0⟩ := ih hrest
      exact ⟨e :: pre, e0, post, by rw [heq, List.cons_append],
        fun x hx => by
          rcases List.mem_cons.mp hx with rfl | hx2
          exacts [hv, hpre x hx2], h0⟩
    · exact ⟨[], e, rest, rfl, by simp, hv⟩

theorem ratToStr_head (q : ℚ) :
    ∃ c t, ratToStr q = c :: t ∧ c.isDigit = true := by
  unfold ratToStr
  dsimp only
  split
  · cases hn : natStr ((q * 10 ^ tenExp q.den).num.toNat) with
    | nil => exact absurd hn (natStr_ne_nil _)
    | cons c t =>
      exact ⟨c, t, rfl, natStr_digits _ c (by rw [hn]; exact List.mem_cons_self _ _)⟩
  · cases hn : natStr ((q * 10 ^ tenExp q.den).num.toNat / 10 ^ tenExp q.den) with
    | nil => exact absurd hn (natStr_ne_nil _)
    | cons c t =>
      refine ⟨c, t ++ '.' :: natStrPad ((q * 10 ^ tenExp q.den).num.toNat %
        10 ^ tenExp q.den) (tenExp q.den), ?_, ?_⟩
      · rw [List.cons_append]
      · exact natStr_digits _ c (by rw [hn]; exact List.mem_cons_self _ _)

theorem restChunks_head (m : CoeffMap) (exps : List ℕ) {c : Char}
    {t : List Char} (h : stripWS (restChunks m exps) = c :: t) :
    c = '+' ∨ c = '-' := by
  induction exps generalizing c t with
  | nil => exact absurd h (by simp [restChunks, stripWS])
  | cons e rest ih =>
    unfold restChunks at h
    rw [show stripWS ((if getD m e = 0 then [] else
        termChunk false e (getD m e)) ++ restChunks m rest) =
        stripWS (if getD m e = 0 then [] else termChunk false e (getD m e)) ++
        stripWS (restChunks m rest) from by rw [stripWS, List.filter_append]; rfl] at h
    by_cases hv : getD m e = 0
    · rw [if_pos hv] at h
      exact ih (by simpa using h)
    · rw [if_neg hv, stripWS_termChunk] at h
      by_cases hs : 0 ≤ getD m e
      · rw [if_neg (by simp), if_pos hs] at h
        simp only [List.cons_append, List.nil_append] at h
        exact Or.inl (List.cons.inj h).1.symm
      · rw [if_neg (by simp), if_neg hs] at h
        simp only [List.cons_append, List.nil_append] at h
        exact Or.inr (List.cons.inj h).1.symm

/-- Every position after a printed chunk starts with `+`, `-`, or is the
synthetic tail: a blocked head for both matchers. -/
theorem blockHead_rest (m : CoeffMap) (exps : List ℕ) (l : List Char) :
    blockHead (stripWS (restChunks m exps) ++ ('+' :: l)) := by
  intro c t h
  cases hs : stripWS (restChunks m exps) with
  | nil =>
    rw [hs, List.nil_append] at h
    rw [← (List.cons.inj h).1]
    refine ⟨rfl, by decide, by decide, by decide⟩
  | cons c0 t0 =>
    rw [hs, List.cons_append] at h
    rw [← (List.cons.inj h).1]
    rcases restChunks_head m exps hs with h1 | h1 <;> subst h1
    · exact ⟨rfl, by decide, by decide, by decide⟩
    · exact ⟨rfl, by decide, by decide, by decide⟩

theorem matchTermFrom_ratToStr {so : Option Char} {sgn : List Char} (q : ℚ)
    {ds rest : List Char}
    (hsgn : eatSign (sgn ++ (ratToStr q ++ '*' :: 'X' :: '^' :: (ds ++ rest))) =
            (so, ratToStr q ++ '*' :: 'X' :: '^' :: (ds ++ rest)))
    (hds : ds ≠ [] ∧ ∀ c ∈ ds, c.isDigit = true)
    (hrest : ∀ c t, rest = c :: t → c.isDigit = false) :
    matchTermFrom (sgn ++ (ratToStr q ++ '*' :: 'X' :: '^' :: (ds ++ rest))) =
      some (⟨so, ratToStr q, ds⟩, rest) := by
  by_cases hk : tenExp q.den = 0
  · have hshape : ratToStr q = natStr ((q * 10 ^ tenExp q.den).num.toNat) := by
      unfold ratToStr
      dsimp only
      rw [if_pos hk]
    rw [hshape] at hsgn ⊢
    exact matchTermFrom_nodot hsgn (natStr_digits _) hds hrest
  · have hshape : ratToStr q =
        natStr ((q * 10 ^ tenExp q.den).num.toNat / 10 ^ tenExp q.den) ++
        '.' :: natStrPad ((q * 10 ^ tenExp q.den).num.toNat % 10 ^ tenExp q.den)
          (tenExp q.den) := by
      unfold ratToStr
      dsimp only
      rw [if_neg hk]
    rw [hshape] at hsgn ⊢
    have hassoc : (natStr ((q * 10 ^ tenExp q.den).num.toNat / 10 ^ tenExp q.den) ++
        '.' :: natStrPad ((q * 10 ^ tenExp q.den).num.toNat % 10 ^ tenExp q.den)
          (tenExp q.den)) ++ '*' :: 'X' :: '^' :: (ds ++ rest) =
        natStr ((q * 10 ^ tenExp q.den).num.toNat / 10 ^ tenExp q.den) ++
        '.' :: (natStrPad ((q * 10 ^ tenExp q.den).num.toNat % 10 ^ tenExp q.den)
          (tenExp q.den) ++ '*' :: 'X' :: '^' :: (ds ++ rest)) := by
      simp
    rw [hassoc] at hsgn ⊢
    exact matchTermFrom_dot hsgn (natStr_digits _) (natStrPad_digits _ _) hds hrest

theorem chunk_sign_num_chars (q : ℚ) {sgn : List Char}
    (hsgn : sgn = [] ∨ sgn = ['+'] ∨ sgn = ['-']) :
    ∀ c ∈ sgn ++ ratToStr q, numericChar c := by
  intro c hc
  rcases List.mem_append.mp hc with hc1 | hc1
  · rcases hsgn with rfl | rfl | rfl
    · exact absurd hc1 (by simp)
    · rw [List.mem_singleton] at hc1
      subst hc1
      exact Or.inr (Or.inr (Or.inl rfl))
    · rw [List.mem_singleton] at hc1
      subst hc1
      exact Or.inr (Or.inr (Or.inr rfl))
  · rcases ratToStr_chars q c hc1 with hd | hd
    · exact Or.inl hd
    · exact Or.inr (Or.inl hd)

theorem scanTerms_chunk_step (q : ℚ) (sgn : List Char) (so : Option Char)
    (hcase : (sgn = [] ∧ so = none) ∨ (sgn = ['+'] ∧ so = some '+') ∨
      (sgn = ['-'] ∧ so = some '-'))
    {ds : List Char} (hds : ds ≠ [] ∧ ∀ c ∈ ds, c.isDigit = true)
    (R : List Char) (hR : blockHead R) :
    scanTerms ((sgn ++ ratToStr q ++ '*' :: 'X' :: '^' :: ds) ++ R) =
      ⟨so, ratToStr q, ds⟩ :: scanTerms R := by
  have hRd : ∀ c t, R = c :: t → c.isDigit = false := fun c t h => (hR c t h).1
  have hlist : (sgn ++ ratToStr q ++ '*' :: 'X' :: '^' :: ds) ++ R =
      sgn ++ (ratToStr q ++ '*' :: 'X' :: '^' :: (ds ++ R)) := by
    simp [List.append_assoc]
  rw [hlist]
  rcases hcase with ⟨rfl, rfl⟩ | ⟨rfl, rfl⟩ | ⟨rfl, rfl⟩
  · obtain ⟨c, t, hct, hcd⟩ := ratToStr_head q
    have hsgn : eatSign (([] : List Char) ++ (ratToStr q ++ '*' :: 'X' :: '^' ::
        (ds ++ R))) = (none, ratToStr q ++ '*' :: 'X' :: '^' :: (ds ++ R)) := by
      rw [List.nil_append, hct, List.cons_append]
      exact eatSign_not_sign
        (fun hh => by rw [hh] at hcd; exact absurd hcd (by decide))
        (fun hh => by rw [hh] at hcd; exact absurd hcd (by decide))
    have hmatch := matchTermFrom_ratToStr q hsgn ⟨hds.1, hds.2⟩ hRd
    rw [List.nil_append, hct, List.cons_append]
    have hm : matchTermFrom (c :: (t ++ '*' :: 'X' :: '^' :: (ds ++ R))) =
        some (⟨none, ratToStr q, ds⟩, R) := by
      rw [← List.cons_append, ← hct]
      exact hmatch
    rw [scanTerms_cons_some hm, hct]
  · have hsgn : eatSign (['+'] ++ (ratToStr q ++ '*' :: 'X' :: '^' ::
        (ds ++ R))) = (some '+', ratToStr q ++ '*' :: 'X' :: '^' :: (ds ++ R)) :=
      rfl
    have hmatch := matchTermFrom_ratToStr q hsgn ⟨hds.1, hds.2⟩ hRd
    rw [List.singleton_append]
    have hm : matchTermFrom ('+' :: (ratToStr q ++ '*' :: 'X' :: '^' ::
        (ds ++ R))) = some (⟨some '+', ratToStr q, ds⟩, R) := hmatch
    rw [scanTerms_cons_some hm]
  · have hsgn : eatSign (['-'] ++ (ratToStr q ++ '*' :: 'X' :: '^' ::
        (ds ++ R))) = (some '-', ratToStr q ++ '*' :: 'X' :: '^' :: (ds ++ R)) :=
      rfl
    have hmatch := matchTermFrom_ratToStr q hsgn ⟨hds.1, hds.2⟩ hRd
    rw [List.singleton_append]
    have hm : matchTermFrom ('-' :: (ratToStr q ++ '*' :: 'X' :: '^' ::
        (ds ++ R))) = some (⟨some '-', ratToStr q, ds⟩, R) := hmatch
    rw [scanTerms_cons_some hm]

theorem extractConstant_chunk_step (q : ℚ) {e : ℕ} (he : e ≠ 0)
    (sgn : List Char) (hsgn : sgn = [] ∨ sgn = ['+'] ∨ sgn = ['-'])
    (R : List Char) (hR : blockHead R) :
    extractConstant ((sgn ++ ratToStr q ++ '*' :: 'X' :: '^' :: natStr e) ++ R) =
      extractConstant R := by
  obtain ⟨d, dt, hd, hd0, hddig⟩ := natStr_head he
  have hdt : ∀ c ∈ dt, c.isDigit = true := fun c hc =>
    natStr_digits e c (by rw [hd]; exact List.mem_cons_of_mem _ hc)
  have hskip := @extractConstant_skip_term (sgn ++ ratToStr q) dt R d
    (chunk_sign_num_chars q hsgn) hddig hd0 hdt hR
  have hlist : (sgn ++ ratToStr q ++ '*' :: 'X' :: '^' :: natStr e) ++ R =
      ((sgn ++ ratToStr q) ++ '*' :: 'X' :: '^' :: d :: dt) ++ R := by
    rw [hd]
  rw [hlist]
  exact hskip

theorem stripWS_termChunk_false (e : ℕ) (v : ℚ) :
    stripWS (termChunk false e v) =
      (if 0 ≤ v then ['+'] else ['-']) ++ ratToStr |v| ++
      (if e ≠ 0 then '*' :: 'X' :: '^' :: natStr e else []) := by
  rw [stripWS_termChunk]
  rfl

theorem stripWS_termChunk_true (e : ℕ) (v : ℚ) :
    stripWS (termChunk true e v) =
      (if 0 ≤ v then [] else ['-']) ++ ratToStr |v| ++
      (if e ≠ 0 then '*' :: 'X' :: '^' :: natStr e else []) := by
  rw [stripWS_termChunk]
  rfl

theorem stripWS_restChunks_cons (m : CoeffMap) (e : ℕ) (rest : List ℕ) :
    stripWS (restChunks m (e :: rest)) =
      stripWS (if getD m e = 0 then [] else termChunk false e (getD m e)) ++
      stripWS (restChunks m rest) := by
  show stripWS ((if getD m e = 0 then [] else termChunk false e (getD m e)) ++
      restChunks m rest) = _
  rw [stripWS, List.filter_append]
  rfl

/-- The raw terms the scanner recovers from the non-first printed chunks. -/
def restRaws (m : CoeffMap) : List ℕ → List RawTerm
  | [] => []
  | e :: rest =>
    (if getD m e = 0 ∨ e = 0 then [] else
      [⟨if 0 ≤ getD m e then some '+' else some '-',
        ratToStr |getD m e|, natStr e⟩]) ++ restRaws m rest

/-- The exponent/value pairs those raw terms evaluate to. -/
def restPairs (m : CoeffMap) : List ℕ → List (ℕ × ℚ)
  | [] => []
  | e :: rest =>
    (if getD m e = 0 ∨ e = 0 then [] else [(e, getD m e)]) ++ restPairs m rest

theorem scanTerms_restChunks (m : CoeffMap) (exps : List ℕ) :
    scanTerms (stripWS (restChunks m exps) ++ ['+', '1', '*', 'X', '^', '0']) =
      restRaws m exps ++ [⟨some '+', ['1'], ['0']⟩] := by
  induction exps with
  | nil =>
    show scanTerms (([] : List Char) ++ ['+', '1', '*', 'X', '^', '0']) =
      ([] : List RawTerm) ++ [⟨some '+', ['1'], ['0']⟩]
    decide
  | cons e rest ih =>
    rw [stripWS_restChunks_cons, List.append_assoc]
    simp only [restRaws]
    by_cases hv : getD m e = 0
    · rw [if_pos hv, if_pos (Or.inl hv),
        show stripWS ([] : List Char) = [] from rfl, List.nil_append,
        List.nil_append]
      exact ih
    · rw [if_neg hv, stripWS_termChunk_false]
      by_cases he : e = 0
      · subst he
        rw [if_pos (Or.inr rfl), List.nil_append,
          if_neg (show ¬((0 : ℕ) ≠ 0) by omega), List.append_nil]
        have hsg : (if (0 : ℚ) ≤ getD m 0 then (['+'] : List Char) else ['-']) =
            [] ∨ (if (0 : ℚ) ≤ getD m 0 then (['+'] : List Char) else ['-']) =
            ['+'] ∨ (if (0 : ℚ) ≤ getD m 0 then (['+'] : List Char) else ['-']) =
            ['-'] := by
          split_ifs <;> simp
        rw [scanTerms_skip_numeric (chunk_sign_num_chars _ hsg)
          (blockHead_rest m rest _)]
        exact ih
      · rw [if_neg (not_or.mpr ⟨hv, he⟩), if_pos he]
        by_cases hs : 0 ≤ getD m e
        · rw [if_pos hs, if_pos hs,
            scanTerms_chunk_step |getD m e| ['+'] (some '+')
              (Or.inr (Or.inl ⟨rfl, rfl⟩)) ⟨natStr_ne_nil e, natStr_digits e⟩
              _ (blockHead_rest m rest _), ih]
          simp
        · rw [if_neg hs, if_neg hs,
            scanTerms_chunk_step |getD m e| ['-'] (some '-')
              (Or.inr (Or.inr ⟨rfl, rfl⟩)) ⟨natStr_ne_nil e, natStr_digits e⟩
              _ (blockHead_rest m rest _), ih]
          simp

theorem extractConstant_restChunks (m : CoeffMap) (exps : List ℕ) :
    extractConstant (stripWS (restChunks m exps) ++
      ['+', '1', '*', 'X', '^', '0']) = 1 := by
  induction exps with
  | nil =>
    show extractConstant (([] : List Char) ++ ['+', '1', '*', 'X', '^', '0']) = 1
    rw [List.nil_append, extractConstant_cons_some (matchConstFrom_synth []),
      show extractConstant ([] : List Char) = 0 from rfl]
    norm_num
  | cons e rest ih =>
    rw [stripWS_restChunks_cons, List.append_assoc]
    by_cases hv : getD m e = 0
    · rw [if_pos hv, show stripWS ([] : List Char) = [] from rfl,
        List.nil_append]
      exact ih
    · rw [if_neg hv, stripWS_termChunk_false]
      by_cases he : e = 0
      · subst he
        rw [if_neg (show ¬((0 : ℕ) ≠ 0) by omega), List.append_nil]
        have hsg : (if (0 : ℚ) ≤ getD m 0 then (['+'] : List Char) else ['-']) =
            [] ∨ (if (0 : ℚ) ≤ getD m 0 then (['+'] : List Char) else ['-']) =
            ['+'] ∨ (if (0 : ℚ) ≤ getD m 0 then (['+'] : List Char) else ['-']) =
            ['-'] := by
          split_ifs <;> simp
        rw [extractConstant_skip_numeric (chunk_sign_num_chars _ hsg)
          (blockHead_rest m rest _)]
        exact ih
      · rw [if_pos he]
        by_cases hs : 0 ≤ getD m e
        · rw [if_pos hs,
            extractConstant_chunk_step |getD m e| he ['+'] (Or.inr (Or.inl rfl))
              _ (blockHead_rest m rest _)]
          exact ih
        · rw [if_neg hs,
            extractConstant_chunk_step |getD m e| he ['-'] (Or.inr (Or.inr rfl))
              _ (blockHead_rest m rest _)]
          exact ih

theorem termValue_pos_chunk {v : ℚ} (hv : IsDec v) (hs : 0 ≤ v)
    (so : Option Char) (hso : so = none ∨ so = some '+') (ds : List Char) :
    termValue ⟨so, ratToStr |v|, ds⟩ = v := by
  unfold termValue
  dsimp only
  have hne : ratToStr |v| ≠ [] := ratToStr_ne_nil _
  have hss : ¬ so = some '-' := by rcases hso with rfl | rfl <;> simp
  rw [if_neg hss, one_mul, if_neg (fun h => hne h.1), if_neg (fun h => hne h.1),
    if_neg hne, parseFloatQ_ratToStr (abs_nonneg v) hv.abs, abs_of_nonneg hs]

theorem termValue_neg_chunk {v : ℚ} (hv : IsDec v) (hs : ¬ 0 ≤ v)
    (ds : List Char) :
    termValue ⟨some '-', ratToStr |v|, ds⟩ = v := by
  unfold termValue
  dsimp only
  have hne : ratToStr |v| ≠ [] := ratToStr_ne_nil _
  rw [if_pos rfl, neg_one_mul, if_neg (fun h => hne h.1),
    if_neg (fun h => hne h.1), if_neg hne,
    parseFloatQ_ratToStr (abs_nonneg v) hv.abs,
    abs_of_neg (lt_of_not_le hs), neg_neg]

theorem parseFloatQ_one : parseFloatQ ['1'] = 1 := by
  simp [parseFloatQ, digitsToNat, List.takeWhile, List.dropWhile]

theorem termValue_synth : termValue ⟨some '+', ['1'], ['0']⟩ = 1 := by
  unfold termValue
  dsimp only
  rw [if_neg (by simp), one_mul, if_neg (by simp), if_neg (by simp),
    if_neg (by simp), parseFloatQ_one]

theorem restRaws_pairs (m : CoeffMap) (hm : ∀ e, IsDec (getD m e))
    (exps : List ℕ) :
    (restRaws m exps).map
      (fun t => (digitsToNat t.expDigits, termValue t)) = restPairs m exps := by
  induction exps with
  | nil => rfl
  | cons e rest ih =>
    simp only [restRaws, restPairs]
    by_cases hc : getD m e = 0 ∨ e = 0
    · rw [if_pos hc, if_pos hc, List.nil_append, List.nil_append]
      exact ih
    · rw [if_neg hc, if_neg hc]
      simp only [List.singleton_append, List.map_cons]
      rw [ih]
      congr 1
      rw [digitsToNat_natStr]
      by_cases hs : 0 ≤ getD m e
      · rw [if_pos hs, termValue_pos_chunk (hm e) hs _ (Or.inr rfl)]
      · rw [if_neg hs, termValue_neg_chunk (hm e) hs]

theorem lookupC_addTerm (m : CoeffMap) (e x : ℕ) (v : ℚ) :
    lookupC (addTerm m e v) x =
      if x = e then some (getD m e + v) else lookupC m x := by
  induction m with
  | nil =>
    show lookupC [(e, v)] x = _
    simp only [lookupC]
    by_cases hx : x = e
    · subst hx
      rw [if_pos rfl, if_pos rfl]
      simp [getD, lookupC]
    · rw [if_neg (fun hh => hx hh.symm), if_neg hx]
  | cons p t ih =>
    obtain ⟨e', v'⟩ := p
    show lookupC (if e' = e then (e', v' + v) :: t else (e', v') :: addTerm t e v)
        x = _
    by_cases he : e' = e
    · subst he
      rw [if_pos rfl]
      show (if e' = x then some (v' + v) else lookupC t x) = _
      by_cases hx : x = e'
      · subst hx
        rw [if_pos rfl, if_pos rfl]
        simp [getD, lookupC]
      · rw [if_neg (fun hh => hx hh.symm), if_neg hx]
        show _ = lookupC ((e', v') :: t) x
        simp only [lookupC]
        rw [if_neg (fun hh => hx hh.symm)]
    · rw [if_neg he]
      show (if e' = x then some v' else lookupC (addTerm t e v) x) = _
      by_cases hx : x = e'
      · subst hx
        rw [if_pos rfl, if_neg he]
        show _ = lookupC ((x, v') :: t) x
        simp [lookupC]
      · rw [if_neg (fun hh => hx hh.symm), ih]
        by_cases hxe : x = e
        · subst hxe
          rw [if_pos rfl, if_pos rfl]
          have : getD ((e', v') :: t) x = getD t x := by
            simp only [getD, lookupC]
            rw [if_neg (fun hh => hx hh.symm)]
          rw [this]
        · rw [if_neg hxe, if_neg hxe]
          show lookupC t x = lookupC ((e', v') :: t) x
          simp only [lookupC]
          rw [if_neg (fun hh => hx hh.symm)]

theorem foldAdd_lookup (L : List (ℕ × ℚ)) (hd : (L.map Prod.fst).Nodup)
    (macc : CoeffMap) (x : ℕ) :
    lookupC (L.foldl (fun m p => addTerm m p.1 p.2) macc) x =
      match lookupC L x with
      | some v => some (getD macc x + v)
      | none => lookupC macc x := by
  induction L generalizing macc with
  | nil => rfl
  | cons p t ih =>
    obtain ⟨e, v⟩ := p
    simp only [List.map_cons, List.nodup_cons] at hd
    simp only [List.foldl_cons]
    rw [ih hd.2]
    by_cases hx : e = x
    · subst hx
      have ht : lookupC t e = none := by
        cases hl : lookupC t e with
        | none => rfl
        | some w =>
          exact absurd (List.mem_map.mpr ⟨(e, w), lookupC_mem hl, rfl⟩) hd.1
      rw [ht]
      rw [show lookupC ((e, v) :: t) e = some v from by simp [lookupC]]
      rw [lookupC_addTerm, if_pos rfl]
    · have hL : lookupC ((e, v) :: t) x = lookupC t x := by
        simp only [lookupC]
        rw [if_neg hx]
      rw [hL]
      have hg : getD (addTerm macc e v) x = getD macc x := by
        simp only [getD]
        rw [lookupC_addTerm, if_neg (fun hh => hx hh.symm)]
      have hl2 : lookupC (addTerm macc e v) x = lookupC macc x := by
        rw [lookupC_addTerm, if_neg (fun hh => hx hh.symm)]
      rw [hg, hl2]

theorem lookupC_append (a b : CoeffMap) (x : ℕ) :
    lookupC (a ++ b) x = match lookupC a x with
      | some v => some v
      | none => lookupC b x := by
  induction a with
  | nil => rfl
  | cons p t ih =>
    obtain ⟨e, v⟩ := p
    rw [List.cons_append]
    show (if e = x then some v else lookupC (t ++ b) x) = _
    by_cases he : e = x
    · rw [if_pos he]
      rw [show lookupC ((e, v) :: t) x = some v from by simp [lookupC, he]]
    · rw [if_neg he, ih]
      rw [show lookupC ((e, v) :: t) x = lookupC t x from by
        simp only [lookupC]; rw [if_neg he]]

theorem lookupC_ne_none_iff {m : CoeffMap} {x : ℕ} :
    ¬ lookupC m x = none ↔ x ∈ keysOf m := by
  induction m with
  | nil => simp [lookupC, keysOf]
  | cons p t ih =>
    obtain ⟨e, v⟩ := p
    show ¬ (if e = x then some v else lookupC t x) = none ↔
      x ∈ e :: keysOf t
    by_cases he : e = x
    · subst he
      simp
    · rw [if_neg he, List.mem_cons]
      simp only [ih]
      constructor
      · exact fun h => Or.inr h
      · rintro (rfl | h)
        · exact absurd rfl he
        · exact h

theorem extractTerms_eq_foldAdd (side : List Char) :
    extractTerms side = ((scanTerms side).map
      (fun t => (digitsToNat t.expDigits, termValue t))).foldl
        (fun m p => addTerm m p.1 p.2) [] := by
  unfold extractTerms
  rw [List.foldl_map]

theorem getD_combineSides_ne_zero (lt rt : CoeffMap) (cl cr : ℚ) {e : ℕ}
    (he : e ≠ 0) :
    getD (combineSides lt rt cl cr) e = getD lt e - getD rt e := by
  show (lookupC (combineSides lt rt cl cr) e).getD 0 = _
  rw [(combineSides_spec lt rt cl cr).1 e he]
  split_ifs with h
  · rfl
  · push_neg at h
    have h1 : lookupC lt e = none := by
      cases hl : lookupC lt e with
      | none => rfl
      | some w =>
        exact absurd (lookupC_ne_none_iff.mp (by simp [hl])) h.1
    have h2 : lookupC rt e = none := by
      cases hl : lookupC rt e with
      | none => rfl
      | some w =>
        exact absurd (lookupC_ne_none_iff.mp (by simp [hl])) h.2
    show (0 : ℚ) = (lookupC lt e).getD 0 - (lookupC rt e).getD 0
    rw [h1, h2]
    norm_num

theorem getD_combineSides_zero (lt rt : CoeffMap) (cl cr : ℚ) :
    getD (combineSides lt rt cl cr) 0 = cl - cr := by
  show (lookupC (combineSides lt rt cl cr) 0).getD 0 = _
  rw [(combineSides_spec lt rt cl cr).2]
  rfl

theorem nodup_insertSorted {e : ℕ} {l : List ℕ} (he : e ∉ l) (hl : l.Nodup) :
    (insertSorted e l).Nodup := by
  induction l with
  | nil => simp [insertSorted]
  | cons a t ih =>
    unfold insertSorted
    rw [List.mem_cons, not_or] at he
    rw [List.nodup_cons] at hl
    split
    · rw [List.nodup_cons, List.nodup_cons]
      exact ⟨by rw [List.mem_cons, not_or]; exact he, hl⟩
    · rw [List.nodup_cons]
      refine ⟨?_, ih he.2 hl.2⟩
      rw [mem_insertSorted, not_or]
      exact ⟨fun hh => he.1 hh.symm, hl.1⟩

theorem nodup_sortAsc {l : List ℕ} (h : l.Nodup) : (sortAsc l).Nodup := by
  induction l with
  | nil => simp [sortAsc]
  | cons a t ih =>
    rw [List.nodup_cons] at h
    show (insertSorted a (sortAsc t)).Nodup
    exact nodup_insertSorted (fun hh => h.1 (mem_sortAsc.mp hh)) (ih h.2)

theorem restPairs_keys_sublist (m : CoeffMap) (l : List ℕ) :
    List.Sublist ((restPairs m l).map Prod.fst) l := by
  induction l with
  | nil => simp [restPairs]
  | cons e rest ih =>
    simp only [restPairs]
    split_ifs with hc
    · rw [List.nil_append]
      exact ih.trans (List.sublist_cons_self _ _)
    · rw [List.singleton_append, List.map_cons]
      exact List.Sublist.cons₂ _ ih

theorem restPairs_keys_nodup (m : CoeffMap) {l : List ℕ} (hl : l.Nodup) :
    ((restPairs m l).map Prod.fst).Nodup :=
  (restPairs_keys_sublist m l).nodup hl

theorem restPairs_zero_not_key (m : CoeffMap) (l : List ℕ) :
    (0 : ℕ) ∉ (restPairs m l).map Prod.fst := by
  induction l with
  | nil => simp [restPairs]
  | cons e rest ih =>
    simp only [restPairs]
    split_ifs with hc
    · simpa using ih
    · rw [List.singleton_append, List.map_cons, List.mem_cons]
      push_neg
      push_neg at hc
      exact ⟨fun hh => hc.2 hh.symm, ih⟩

theorem lookupC_restPairs (m : CoeffMap) (l : List ℕ) (hl : l.Nodup) (x : ℕ) :
    lookupC (restPairs m l) x =
      if x ∈ l ∧ getD m x ≠ 0 ∧ x ≠ 0 then some (getD m x) else none := by
  induction l with
  | nil => simp [restPairs, lookupC]
  | cons e rest ih =>
    rw [List.nodup_cons] at hl
    simp only [restPairs]
    split_ifs with hc hx hx
    · -- head filtered out
      rw [List.nil_append, ih hl.2, if_pos ?_]
      obtain ⟨hx1, hx2, hx3⟩ := hx
      rcases List.mem_cons.mp hx1 with rfl | hmem
      · rcases hc with hc | hc
        · exact absurd hc hx2
        · exact absurd hc hx3
      · exact ⟨hmem, hx2, hx3⟩
    · rw [List.nil_append, ih hl.2, if_neg ?_]
      intro ⟨hx1, hx2, hx3⟩
      exact hx ⟨List.mem_cons_of_mem _ hx1, hx2, hx3⟩
    · -- head kept
      rw [List.singleton_append]
      show (if e = x then some (getD m e) else lookupC (restPairs m rest) x) = _
      push_neg at hc
      by_cases hex : e = x
      · subst hex
        rw [if_pos rfl]
      · rw [if_neg hex, ih hl.2, if_pos ?_]
        obtain ⟨hx1, hx2, hx3⟩ := hx
        rcases List.mem_cons.mp hx1 with rfl | hmem
        · exact absurd rfl hex
        · exact ⟨hmem, hx2, hx3⟩
    · rw [List.singleton_append]
      show (if e = x then some (getD m e) else lookupC (restPairs m rest) x) = _
      push_neg at hc
      by_cases hex : e = x
      · subst hex
        exact absurd ⟨List.mem_cons_self _ _, hc.1, hc.2⟩ hx
      · rw [if_neg hex, ih hl.2, if_neg ?_]
        intro ⟨hx1, hx2, hx3⟩
        exact hx ⟨List.mem_cons_of_mem _ hx1, hx2, hx3⟩

theorem splitEq_no_eq_append {a b : List Char} (ha : ∀ c ∈ a, c ≠ '=') :
    splitEq (a ++ '=' :: b) = a :: splitEq b := by
  induction a with
  | nil =>
    rw [List.nil_append]
    show splitEq ('=' :: b) = [] :: splitEq b
    conv_lhs => unfold splitEq
    rw [if_pos rfl]
  | cons c t ih =>
    rw [List.cons_append]
    show splitEq (c :: (t ++ '=' :: b)) = (c :: t) :: splitEq b
    conv_lhs => unfold splitEq
    rw [if_neg (ha c (List.mem_cons_self _ _)),
      ih (fun x hx => ha x (List.mem_cons_of_mem _ hx))]

theorem digit_ne_eq {c : Char} (h : c.isDigit = true) : c ≠ '=' := by
  intro hh
  rw [hh] at h
  exact absurd h (by decide)

theorem stripWS_termChunk_no_eq (first : Bool) (e : ℕ) (v : ℚ) :
    ∀ c ∈ stripWS (termChunk first e v), c ≠ '=' := by
  rw [stripWS_termChunk]
  intro c hc
  rcases List.mem_append.mp hc with hc1 | hc1
  · rcases List.mem_append.mp hc1 with hc2 | hc2
    · revert hc2
      split_ifs
      · intro hc2
        exact absurd hc2 (by simp)
      · intro hc2
        rw [List.mem_singleton] at hc2
        subst hc2
        decide
      · intro hc2
        rw [List.mem_singleton] at hc2
        subst hc2
        decide
      · intro hc2
        rw [List.mem_singleton] at hc2
        subst hc2
        decide
    · rcases ratToStr_chars _ c hc2 with hd | hd
      · exact digit_ne_eq hd
      · subst hd
        decide
  · revert hc1
    split_ifs
    · intro hc1
      rcases List.mem_cons.mp hc1 with rfl | hc2
      · decide
      · rcases List.mem_cons.mp hc2 with rfl | hc3
        · decide
        · rcases List.mem_cons.mp hc3 with rfl | hc4
          · decide
          · exact digit_ne_eq (natStr_digits e c hc4)
    · intro hc1
      exact absurd hc1 (by simp)

theorem restChunks_no_eq (m : CoeffMap) (l : List ℕ) :
    ∀ c ∈ stripWS (restChunks m l), c ≠ '=' := by
  induction l with
  | nil => simp [restChunks, stripWS]
  | cons e rest ih =>
    rw [stripWS_restChunks_cons]
    intro c hc
    rcases List.mem_append.mp hc with hc1 | hc1
    · revert hc1
      split_ifs with hv
      · intro hc1
        exact absurd hc1 (by simp [stripWS])
      · exact fun hc1 => stripWS_termChunk_no_eq false e (getD m e) c hc1
    · exact ih c hc1

theorem getD_eq_zero_of_not_mem {m : CoeffMap} {x : ℕ} (h : x ∉ keysOf m) :
    getD m x = 0 := by
  show (lookupC m x).getD 0 = 0
  cases hl : lookupC m x with
  | none => rfl
  | some v => exact absurd (lookupC_ne_none_iff.mp (by simp [hl])) h

theorem getD_foldAdd_pairs (P : List (ℕ × ℚ)) (hnd : (P.map Prod.fst).Nodup)
    (x : ℕ) :
    getD (P.foldl (fun mm p => addTerm mm p.1 p.2) []) x =
      (lookupC P x).getD 0 := by
  show (lookupC (P.foldl (fun mm p => addTerm mm p.1 p.2) []) x).getD 0 = _
  rw [foldAdd_lookup P hnd [] x]
  cases hl : lookupC P x with
  | none => rfl
  | some v => simp [getD, lookupC]

theorem nodup_parse_pairs (m : CoeffMap) (post : List ℕ) (hnd : post.Nodup)
    (e0 : ℕ) (he0post : e0 ∉ post) :
    ((((if e0 = 0 then [] else [(e0, getD m e0)]) ++
      (restPairs m post ++ [(0, 1)])) : List (ℕ × ℚ)).map Prod.fst).Nodup := by
  have hrest : ((restPairs m post ++ [((0 : ℕ), (1 : ℚ))]).map Prod.fst).Nodup := by
    rw [List.map_append, List.nodup_append]
    refine ⟨restPairs_keys_nodup m hnd, by simp, ?_⟩
    intro a ha hb
    simp only [List.map_cons, List.map_nil, List.mem_singleton] at hb
    subst hb
    exact restPairs_zero_not_key m post ha
  by_cases he0 : e0 = 0
  · rw [if_pos he0, List.nil_append]
    exact hrest
  · rw [if_neg he0, List.singleton_append, List.map_cons, List.nodup_cons]
    refine ⟨?_, hrest⟩
    rw [List.map_append, List.mem_append]
    push_neg
    constructor
    · intro hh
      exact he0post ((restPairs_keys_sublist m post).subset hh)
    · simp only [List.map_cons, List.map_nil, List.mem_singleton]
      exact he0

theorem lookupC_parse_pairs (m : CoeffMap) (post : List ℕ) (hnd : post.Nodup)
    (e0 : ℕ) (x : ℕ) (hx : x ≠ 0) :
    lookupC (((if e0 = 0 then [] else [(e0, getD m e0)]) ++
      (restPairs m post ++ [(0, 1)])) : CoeffMap) x =
      if x = e0 ∧ e0 ≠ 0 then some (getD m e0)
      else if x ∈ post ∧ getD m x ≠ 0 then some (getD m x) else none := by
  by_cases he0 : e0 = 0
  · subst he0
    rw [if_pos rfl, List.nil_append, lookupC_append,
      if_neg (fun hh => hh.2 rfl)]
    by_cases h2 : x ∈ post ∧ getD m x ≠ 0
    · have hrp : lookupC (restPairs m post) x = some (getD m x) := by
        rw [lookupC_restPairs m post hnd x, if_pos ⟨h2.1, h2.2, hx⟩]
      simp only [hrp]
      rw [if_pos h2]
    · have hrp : lookupC (restPairs m post) x = none := by
        rw [lookupC_restPairs m post hnd x, if_neg (fun hh => h2 ⟨hh.1, hh.2.1⟩)]
      simp only [hrp]
      rw [if_neg h2]
      show lookupC [((0 : ℕ), (1 : ℚ))] x = none
      simp [lookupC, Ne.symm hx]
  · rw [if_neg he0, List.singleton_append]
    show (if e0 = x then some (getD m e0) else
      lookupC (restPairs m post ++ [(0, 1)]) x) = _
    by_cases hxe : x = e0
    · subst hxe
      rw [if_pos rfl, if_pos ⟨rfl, he0⟩]
    · rw [if_neg (fun hh => hxe hh.symm), if_neg (fun hh => hxe hh.1),
        lookupC_append]
      by_cases h2 : x ∈ post ∧ getD m x ≠ 0
      · have hrp : lookupC (restPairs m post) x = some (getD m x) := by
          rw [lookupC_restPairs m post hnd x, if_pos ⟨h2.1, h2.2, hx⟩]
        simp only [hrp]
        rw [if_pos h2]
      · have hrp : lookupC (restPairs m post) x = none := by
          rw [lookupC_restPairs m post hnd x, if_neg (fun hh => h2 ⟨hh.1, hh.2.1⟩)]
        simp only [hrp]
        rw [if_neg h2]
        show lookupC [((0 : ℕ), (1 : ℚ))] x = none
        simp [lookupC, Ne.symm hx]

theorem stripWS_append (a b : List Char) :
    stripWS (a ++ b) = stripWS a ++ stripWS b := by
  rw [stripWS, List.filter_append]
  rfl

theorem roundtrip_zero (m : CoeffMap) (hz : ∀ e ∈ keysOf m, getD m e = 0) :
    parseEquation (generateReducedForm m) = Except.ok [(0, 0)] := by
  rw [(generateReducedForm_eq m).1 hz]
  have h := @parseEquation_eval "0 = 0" ['0'] ['0'] [] [] [] 0 0
    (by decide) (by decide)
    (extractTerms_nil_of_not_mem_X (by decide))
    (extractTerms_nil_of_not_mem_X (by decide))
    (extractConstant_zero_of_not_mem_X (by decide))
    (extractConstant_zero_of_not_mem_X (by decide))
  rw [h]
  norm_num [combineSides, keysOf, setKey, List.dedup]

/-- Re-parsing the rendered form of a mapping with a non-zero coefficient:
every non-constant slot survives, and the constant slot becomes `1` (the
synthetic ` + 1 * X^0` is the only constant the re-parse can see). -/
theorem roundtrip_nonzero (m : CoeffMap) (hdec : ∀ e, IsDec (getD m e))
    (hnz : ∃ e ∈ keysOf m, getD m e ≠ 0) :
    ∃ m', parseEquation (generateReducedForm m) = Except.ok m' ∧
      (∀ e, e ≠ 0 → getD m' e = getD m e) ∧ getD m' 0 = 1 := by
  obtain ⟨hform, hbody⟩ := (generateReducedForm_eq m).2 hnz
  have hnodup : (sortAsc (keysOf m).dedup).Nodup :=
    nodup_sortAsc (List.nodup_dedup _)
  have hmem : ∀ x, x ∈ sortAsc (keysOf m).dedup ↔ x ∈ keysOf m := fun x => by
    rw [mem_sortAsc, List.mem_dedup]
  obtain ⟨e, he, hene⟩ := hnz
  obtain ⟨pre, e0, post, hdecomp, hpre, h0⟩ :=
    exists_first_nonzero m _ ⟨e, (hmem e).mpr he, hene⟩
  have hpostkeys : e0 ∉ post ∧ post.Nodup := by
    have h2 : (e0 :: post).Nodup := by
      rw [hdecomp] at hnodup
      exact hnodup.of_append_right
    exact List.nodup_cons.mp h2
  have hbody2 : bodyAcc m (sortAsc (keysOf m).dedup) =
      termChunk true e0 (getD m e0) ++ restChunks m post := by
    rw [hdecomp]
    exact bodyAcc_decomp m pre post e0 hpre h0
  rw [hform, hbody2]
  -- the stripped and split input
  have hnoeq : ∀ c ∈ (stripWS (termChunk true e0 (getD m e0)) ++
      stripWS (restChunks m post)) ++ ['+', '1', '*', 'X', '^', '0'],
      c ≠ '=' := by
    intro c hc
    rcases List.mem_append.mp hc with hc1 | hc1
    · rcases List.mem_append.mp hc1 with hc2 | hc2
      · exact stripWS_termChunk_no_eq true e0 (getD m e0) c hc2
      · exact restChunks_no_eq m post c hc2
    · simp only [List.mem_cons, List.not_mem_nil, or_false] at hc1
      rcases hc1 with rfl | rfl | rfl | rfl | rfl | rfl <;> decide
  have hsplitX : splitEq (stripWS ((⟨(termChunk true e0 (getD m e0) ++
      restChunks m post) ++ synthChunk ++ [' ', '=', ' ', '0']⟩ : String).data)) =
      ((stripWS (termChunk true e0 (getD m e0)) ++ stripWS (restChunks m post)) ++
        ['+', '1', '*', 'X', '^', '0']) :: ['0'] :: [] := by
    show splitEq (stripWS ((termChunk true e0 (getD m e0) ++
      restChunks m post) ++ synthChunk ++ [' ', '=', ' ', '0'])) = _
    rw [stripWS_append, stripWS_append, stripWS_append,
      show stripWS synthChunk = ['+', '1', '*', 'X', '^', '0'] from by decide,
      show stripWS [' ', '=', ' ', '0'] = ['=', '0'] from by decide,
      splitEq_no_eq_append hnoeq,
      show splitEq ['0'] = [['0']] from by decide]
  have hne2 : (((stripWS (termChunk true e0 (getD m e0)) ++
      stripWS (restChunks m post)) ++ ['+', '1', '*', 'X', '^', '0'])).isEmpty =
      false := by
    rw [List.isEmpty_eq_false]
    intro hh
    exact absurd (List.append_eq_nil.mp hh).2 (by decide)
  -- the constant of the left side
  have hcl : extractConstant ((stripWS (termChunk true e0 (getD m e0)) ++
      stripWS (restChunks m post)) ++ ['+', '1', '*', 'X', '^', '0']) = 1 := by
    rw [List.append_assoc]
    by_cases he0 : e0 = 0
    · subst he0
      rw [stripWS_termChunk_true, if_neg (show ¬((0 : ℕ) ≠ 0) by omega),
        List.append_nil]
      have hsg : (if (0 : ℚ) ≤ getD m 0 then ([] : List Char) else ['-']) = [] ∨
          (if (0 : ℚ) ≤ getD m 0 then ([] : List Char) else ['-']) = ['+'] ∨
          (if (0 : ℚ) ≤ getD m 0 then ([] : List Char) else ['-']) = ['-'] := by
        split_ifs <;> simp
      rw [extractConstant_skip_numeric (chunk_sign_num_chars _ hsg)
        (blockHead_rest m post _)]
      exact extractConstant_restChunks m post
    · rw [stripWS_termChunk_true, if_pos he0]
      by_cases hs : 0 ≤ getD m e0
      · rw [if_pos hs,
          extractConstant_chunk_step |getD m e0| he0 [] (Or.inl rfl) _
            (blockHead_rest m post _)]
        exact extractConstant_restChunks m post
      · rw [if_neg hs,
          extractConstant_chunk_step |getD m e0| he0 ['-'] (Or.inr (Or.inr rfl))
            _ (blockHead_rest m post _)]
        exact extractConstant_restChunks m post
  -- the scanned terms of the left side
  have hscan : scanTerms ((stripWS (termChunk true e0 (getD m e0)) ++
      stripWS (restChunks m post)) ++ ['+', '1', '*', 'X', '^', '0']) =
      (if e0 = 0 then ([] : List RawTerm) else
        [⟨if 0 ≤ getD m e0 then none else some '-',
          ratToStr |getD m e0|, natStr e0⟩]) ++
      (restRaws m post ++ [⟨some '+', ['1'], ['0']⟩]) := by
    rw [List.append_assoc]
    by_cases he0 : e0 = 0
    · subst he0
      rw [if_pos rfl, List.nil_append, stripWS_termChunk_true,
        if_neg (show ¬((0 : ℕ) ≠ 0) by omega), List.append_nil]
      have hsg : (if (0 : ℚ) ≤ getD m 0 then ([] : List Char) else ['-']) = [] ∨
          (if (0 : ℚ) ≤ getD m 0 then ([] : List Char) else ['-']) = ['+'] ∨
          (if (0 : ℚ) ≤ getD m 0 then ([] : List Char) else ['-']) = ['-'] := by
        split_ifs <;> simp
      rw [scanTerms_skip_numeric (chunk_sign_num_chars _ hsg)
        (blockHead_rest m post _)]
      exact scanTerms_restChunks m post
    · rw [if_neg he0, stripWS_termChunk_true, if_pos he0]
      by_cases hs : 0 ≤ getD m e0
      · rw [if_pos hs, if_pos hs,
          scanTerms_chunk_step |getD m e0| [] none (Or.inl ⟨rfl, rfl⟩)
            ⟨natStr_ne_nil e0, natStr_digits e0⟩ _ (blockHead_rest m post _),
          scanTerms_restChunks m post]
        simp
      · rw [if_neg hs, if_neg hs,
          scanTerms_chunk_step |getD m e0| ['-'] (some '-')
            (Or.inr (Or.inr ⟨rfl, rfl⟩))
            ⟨natStr_ne_nil e0, natStr_digits e0⟩ _ (blockHead_rest m post _),
          scanTerms_restChunks m post]
        simp
  -- those terms evaluate to explicit pairs
  have hpairs : ((if e0 = 0 then ([] : List RawTerm) else
      [⟨if 0 ≤ getD m e0 then none else some '-',
        ratToStr |getD m e0|, natStr e0⟩]) ++
      (restRaws m post ++ ([⟨some '+', ['1'], ['0']⟩] : List RawTerm))).map
        (fun t : RawTerm => (digitsToNat t.expDigits, termValue t)) =
      (if e0 = 0 then [] else [(e0, getD m e0)]) ++
      (restPairs m post ++ [(0, 1)]) := by
    rw [List.map_append, List.map_append, restRaws_pairs m hdec post]
    congr 1
    · by_cases he0 : e0 = 0
      · rw [if_pos he0, if_pos he0]
        rfl
      · rw [if_neg he0, if_neg he0]
        simp only [List.map_cons, List.map_nil]
        rw [digitsToNat_natStr]
        by_cases hs : 0 ≤ getD m e0
        · rw [if_pos hs, termValue_pos_chunk (hdec e0) hs _ (Or.inl rfl)]
        · rw [if_neg hs, termValue_neg_chunk (hdec e0) hs]
    · congr 1
      simp only [List.map_cons, List.map_nil]
      rw [termValue_synth, show digitsToNat ['0'] = 0 from by decide]
  have hlt : extractTerms ((stripWS (termChunk true e0 (getD m e0)) ++
      stripWS (restChunks m post)) ++ ['+', '1', '*', 'X', '^', '0']) =
      (((if e0 = 0 then [] else [(e0, getD m e0)]) ++
        (restPairs m post ++ [(0, 1)])) : List (ℕ × ℚ)).foldl
          (fun mm p => addTerm mm p.1 p.2) [] := by
    rw [extractTerms_eq_foldAdd, hscan, hpairs]
  have hrt : extractTerms ['0'] = [] := extractTerms_nil_of_not_mem_X (by decide)
  have hcr : extractConstant ['0'] = 0 :=
    extractConstant_zero_of_not_mem_X (by decide)
  have happ := parseEquation_eval hsplitX hne2 hlt hrt hcl hcr
  refine ⟨_, happ, ?_, ?_⟩
  · intro x hx
    rw [getD_combineSides_ne_zero _ _ _ _ hx,
      show getD ([] : CoeffMap) x = 0 from rfl, sub_zero,
      getD_foldAdd_pairs _ (nodup_parse_pairs m post hpostkeys.2 e0
        hpostkeys.1) x,
      lookupC_parse_pairs m post hpostkeys.2 e0 x hx]
    by_cases h1 : x = e0 ∧ e0 ≠ 0
    · rw [if_pos h1, h1.1]
      rfl
    · rw [if_neg h1]
      by_cases h2 : x ∈ post ∧ getD m x ≠ 0
      · rw [if_pos h2]
        rfl
      · rw [if_neg h2]
        show (0 : ℚ) = getD m x
        by_cases h3 : x ∈ post
        · push_neg at h2
          exact (h2 h3).symm
        · have hxe0 : x ≠ e0 := by
            intro hh
            subst hh
            rcases not_and_or.mp h1 with hc | hc
            · exact hc rfl
            · push_neg at hc
              exact hx hc
          by_cases h4 : x ∈ keysOf m
          · have h5 : x ∈ pre := by
              have h6 : x ∈ sortAsc (keysOf m).dedup := (hmem x).mpr h4
              rw [hdecomp] at h6
              rcases List.mem_append.mp h6 with h7 | h7
              · exact h7
              · rcases List.mem_cons.mp h7 with rfl | h8
                · exact absurd rfl hxe0
                · exact absurd h8 h3
            exact (hpre x h5).symm
          · exact (getD_eq_zero_of_not_mem h4).symm
  · rw [getD_combineSides_zero]
    norm_num

theorem parseEquation_const5 :
    parseEquation "5*X^0=0*X^0" = Except.ok [(0, 5)] := by
  have hlt : extractTerms ['5', '*', 'X', '^', '0'] = [(0, 5)] := by
    have hscan : scanTerms ['5', '*', 'X', '^', '0'] =
        [⟨none, ['5'], ['0']⟩] := by decide
    unfold extractTerms
    rw [hscan]
    simp [termValue, digitsToNat, addTerm, parseFloatQ, List.takeWhile,
      List.dropWhile]
  have hcl : extractConstant ['5', '*', 'X', '^', '0'] = 5 := by
    simp [extractConstant, extractConstantGo, matchConstFrom, eatConstNum,
      eatSign, eatStar, List.takeWhile, List.dropWhile, parseFloatQ, digitsToNat]
  have h := @parseEquation_eval "5*X^0=0*X^0" ['5', '*', 'X', '^', '0']
    ['0', '*', 'X', '^', '0'] [] [(0, 5)] [(0, 0)] 5 0
    (by decide) (by decide) hlt extractTerms_zeroX0 hcl extractConstant_zeroX0
  rw [h]
  show Except.ok (combineSides [(0, 5)] [(0, 0)] 5 0) = _
  norm_num [combineSides, keysOf, setKey, getD, lookupC, List.dedup]

theorem parseEquation_roundtrip5 :
    parseEquation "5 + 1 * X^0 = 0" = Except.ok [(0, 1)] := by
  have hlt : extractTerms ['5', '+', '1', '*', 'X', '^', '0'] = [(0, 1)] := by
    have hscan : scanTerms ['5', '+', '1', '*', 'X', '^', '0'] =
        [⟨some '+', ['1'], ['0']⟩] := by decide
    unfold extractTerms
    rw [hscan]
    simp [termValue, digitsToNat, addTerm, parseFloatQ, List.takeWhile,
      List.dropWhile]
  have hcl : extractConstant ['5', '+', '1', '*', 'X', '^', '0'] = 1 := by
    simp [extractConstant, extractConstantGo, matchConstFrom, eatConstNum,
      eatSign, eatStar, List.takeWhile, List.dropWhile, parseFloatQ, digitsToNat]
  have h := @parseEquation_eval "5 + 1 * X^0 = 0"
    ['5', '+', '1', '*', 'X', '^', '0'] ['0'] [] [(0, 1)] [] 1 0
    (by decide) (by decide) hlt (extractTerms_nil_of_not_mem_X (by decide)) hcl
    (extractConstant_zero_of_not_mem_X (by decide))
  rw [h]
  show Except.ok (combineSides [(0, 1)] [] 1 0) = _
  norm_num [combineSides, keysOf, setKey, getD, lookupC, List.dedup]

/-- **C7 (amended).**  Feeding the renderer's output back through the parser
preserves every non-constant coefficient, but the constant slot is rewritten
by the synthetic ` + 1 * X^0`: the re-parsed constant is `1` whenever the
mapping has any non-zero coefficient — even when the original constant was a
different non-zero value, which is a larger change than the §9 quirk (a
spurious constant only when none was present) admits — and `0` otherwise. -/
theorem roundtrip_constant_quirk (s : String) (m : CoeffMap)
    (hm : parseEquation s = Except.ok m) :
    ∃ m', parseEquation (generateReducedForm m) = Except.ok m' ∧
      (∀ e, e ≠ 0 → getD m' e = getD m e) ∧
      getD m' 0 = (if ∃ e ∈ keysOf m, getD m e ≠ 0 then 1 else 0) := by
  have hdec : ∀ e, IsDec (getD m e) := parseEquation_isDec hm
  by_cases hnz : ∃ e ∈ keysOf m, getD m e ≠ 0
  · rw [if_pos hnz]
    exact roundtrip_nonzero m hdec hnz
  · rw [if_neg hnz]
    push_neg at hnz
    refine ⟨[(0, 0)], roundtrip_zero m hnz, ?_, ?_⟩
    · intro x hx
      rw [show getD [((0 : ℕ), (0 : ℚ))] x = 0 from by
        simp [getD, lookupC, Ne.symm hx]]
      by_cases hk : x ∈ keysOf m
      · exact (hnz x hk).symm
      · exact (getD_eq_zero_of_not_mem hk).symm
    · simp [getD, lookupC]

/-- **C7, counterexample to the claim as stated.**  The mapping `{0: 5}`
(parsed from the valid input `"5*X^0=0*X^0"`) renders as
`"5 + 1 * X^0 = 0"`, which re-parses to `{0: 1}`: the constant term was
present and non-zero, yet the round trip changes it — a failure not covered
by the §9 quirk, which only concerns a constant that was never printed. -/
theorem roundtrip_counterexample :
    parseEquation "5*X^0=0*X^0" = Except.ok [(0, 5)] ∧
    generateReducedForm [((0 : ℕ), (5 : ℚ))] = "5 + 1 * X^0 = 0" ∧
    parseEquation "5 + 1 * X^0 = 0" = Except.ok [(0, 1)] ∧
    getD [((0 : ℕ), (5 : ℚ))] 0 ≠ 0 ∧
    getD [((0 : ℕ), (1 : ℚ))] 0 ≠ getD [((0 : ℕ), (5 : ℚ))] 0 := by
  refine ⟨parseEquation_const5, generateReducedForm_const5,
    parseEquation_roundtrip5, ?_, ?_⟩
  · norm_num [getD, lookupC]
  · norm_num [getD, lookupC]

/-- Witness for C7's amended theorem at `"5*X^0=0*X^0"` / `{0: 5}`. -/
theorem roundtrip_constant_quirk_witness :
    ∃ m', parseEquation (generateReducedForm [((0 : ℕ), (5 : ℚ))]) =
        Except.ok m' ∧
      (∀ e, e ≠ 0 → getD m' e = getD [((0 : ℕ), (5 : ℚ))] e) ∧
      getD m' 0 = (if ∃ e ∈ keysOf [((0 : ℕ), (5 : ℚ))],
        getD [((0 : ℕ), (5 : ℚ))] e ≠ 0 then 1 else 0) :=
  roundtrip_constant_quirk "5*X^0=0*X^0" [(0, 5)] parseEquation_const5

end Polinom
